import Mathlib

/-!
Verification of the core tree-mutation, merge and publish logic of the
bare-git-cli repository (src/add-file-deep.js, src/remove-file-deep.js,
src/merge-branch.js, src/read-file.js).

Modelling choices (shallow embedding):
* Content addressing is idealised: a hash IS the canonical object value
  (`Obj`), so "same hash" = "same object" (the spec's collision-free
  assumption).  `git.writeTree` canonically sorts entries by name, so our
  `writeTree` sorts; two trees are the same stored object iff the sorted
  entry lists are equal.
* A tree entry is `(path, mode, oid)` exactly as isomorphic-git returns it;
  the entry's `type` field is derived from the mode (mode "040000" ⇒ tree,
  anything else ⇒ blob), matching how readTree reports types.
* `git.readTree` on an object that is not a tree fails; we model that with
  `Except Err`.
* Functions that write objects to the store additionally return the list of
  objects written (writer style), so that "nothing was written" is provable.
-/

/-- Git object: a blob with string content or a tree with entries
`(name, mode, child)`.  The value plays the role of its own hash. -/
inductive Obj where
  | blob (content : String)
  | tree (entries : List (String × String × Obj))
deriving Repr

mutual

/-- Decidable equality of objects (deriving does not handle the nesting). -/
def Obj.decEq : (a b : Obj) → Decidable (a = b)
  | .blob a, .blob b =>
    if h : a = b then .isTrue (by rw [h])
    else .isFalse (by intro hh; cases hh; exact h rfl)
  | .blob _, .tree _ => .isFalse nofun
  | .tree _, .blob _ => .isFalse nofun
  | .tree es, .tree fs =>
    match Obj.decEqList es fs with
    | .isTrue h => .isTrue (by rw [h])
    | .isFalse h => .isFalse (by intro hh; cases hh; exact h rfl)

/-- Decidable equality of entry lists. -/
def Obj.decEqList :
    (es fs : List (String × String × Obj)) → Decidable (es = fs)
  | [], [] => .isTrue rfl
  | [], _ :: _ => .isFalse nofun
  | _ :: _, [] => .isFalse nofun
  | (n, m, o) :: xs, (n', m', o') :: ys =>
    if h1 : n = n' then
      if h2 : m = m' then
        match Obj.decEq o o' with
        | .isTrue h3 =>
          match Obj.decEqList xs ys with
          | .isTrue h4 => .isTrue (by rw [h1, h2, h3, h4])
          | .isFalse h4 => .isFalse (by intro hh; cases hh; exact h4 rfl)
        | .isFalse h3 => .isFalse (by intro hh; cases hh; exact h3 rfl)
      else .isFalse (by intro hh; cases hh; exact h2 rfl)
    else .isFalse (by intro hh; cases hh; exact h1 rfl)

end

instance : DecidableEq Obj := Obj.decEq

deriving instance DecidableEq for Except

/-- A tree entry as isomorphic-git's readTree returns it. -/
abbrev TreeEntry := String × String × Obj

def TreeEntry.path (e : TreeEntry) : String := e.1

def TreeEntry.mode (e : TreeEntry) : String := e.2.1

def TreeEntry.oid (e : TreeEntry) : Obj := e.2.2

/-- The `type` field isomorphic-git reports for a tree entry, derived from
the mode: "040000" is a tree, everything else a blob. -/
def TreeEntry.etype (e : TreeEntry) : String :=
  if e.mode = "040000" then "tree" else "blob"

/-- Error taxonomy of the scripts (each a distinct thrown Error). -/
inductive Err where
  /-- readTree / readBlob applied to an object of the wrong kind. -/
  | objectType
  /-- `Path segment '…' not found` (remove-file-deep.js line 33,
  read-file.js line 39). -/
  | notFound (seg : String)
  /-- `… is not a directory.` (remove-file-deep.js line 43,
  read-file.js line 31). -/
  | typeMismatch (seg : String)
  /-- `Merge Conflict at file '…'. No resolution provided.`
  (merge-branch.js line 89). -/
  | mergeConflict (p : String)
  /-- `Concurrency Error: the ref … has changed` (add-file-deep.js line 145,
  remove-file-deep.js line 131). -/
  | stale
  /-- modelling artefact: the scripts are never called with an empty
  segment list. -/
  | emptyPath
  /-- modelling artefact: recursion fuel exhausted. -/
  | outOfFuel
deriving DecidableEq, Repr

/-- `git.readTree`: succeeds with the entry list on a tree, fails on a blob. -/
def readTree : Obj → Except Err (List TreeEntry)
  | .tree es => .ok es
  | .blob _ => .error .objectType

/-! ### A kernel-computable string order

The library order on `String` decides comparisons through `String.ltb`,
whose well-founded recursion the kernel cannot evaluate, so concrete
facts could not be checked by `decide`.  We therefore compare names by
a plain lexicographic walk over the character lists. -/

def charListLE : List Char → List Char → Bool
  | [], _ => true
  | _ :: _, [] => false
  | a :: as, b :: bs =>
    if a.toNat < b.toNat then true
    else if b.toNat < a.toNat then false
    else charListLE as bs

def charListLt : List Char → List Char → Bool
  | [], [] => false
  | [], _ :: _ => true
  | _ :: _, [] => false
  | a :: as, b :: bs =>
    if a.toNat < b.toNat then true
    else if b.toNat < a.toNat then false
    else charListLt as bs

def strLE (a b : String) : Bool := charListLE a.data b.data

def strLt (a b : String) : Bool := charListLt a.data b.data

theorem charInj {a b : Char} (h : a.toNat = b.toNat) : a = b :=
  Char.ext (UInt32.ext h)

theorem charListLE_cons_iff {a b : Char} {as bs : List Char} :
    charListLE (a :: as) (b :: bs) = true ↔
      a.toNat < b.toNat ∨ (a.toNat = b.toNat ∧ charListLE as bs = true) := by
  simp only [charListLE]
  rcases Nat.lt_trichotomy a.toNat b.toNat with h | h | h
  · simp [h]
  · have h1 : ¬ a.toNat < b.toNat := by
      rw [h]
      exact Nat.lt_irrefl _
    have h2 : ¬ b.toNat < a.toNat := by
      rw [h]
      exact Nat.lt_irrefl _
    rw [if_neg h1, if_neg h2]
    simp [h, h1]
  · have h1 : ¬ a.toNat < b.toNat := Nat.lt_asymm h
    rw [if_neg h1, if_pos h]
    simp [h1, Nat.ne_of_gt h]

theorem charListLt_cons_iff {a b : Char} {as bs : List Char} :
    charListLt (a :: as) (b :: bs) = true ↔
      a.toNat < b.toNat ∨ (a.toNat = b.toNat ∧ charListLt as bs = true) := by
  simp only [charListLt]
  rcases Nat.lt_trichotomy a.toNat b.toNat with h | h | h
  · simp [h]
  · have h1 : ¬ a.toNat < b.toNat := by
      rw [h]
      exact Nat.lt_irrefl _
    have h2 : ¬ b.toNat < a.toNat := by
      rw [h]
      exact Nat.lt_irrefl _
    rw [if_neg h1, if_neg h2]
    simp [h, h1]
  · have h1 : ¬ a.toNat < b.toNat := Nat.lt_asymm h
    rw [if_neg h1, if_pos h]
    simp [h1, Nat.ne_of_gt h]

theorem charListLE_refl : ∀ l : List Char, charListLE l l = true
  | [] => rfl
  | a :: as => by simp [charListLE, Nat.lt_irrefl, charListLE_refl as]

theorem charListLE_total : ∀ a b : List Char,
    charListLE a b = true ∨ charListLE b a = true
  | [], _ => Or.inl rfl
  | _ :: _, [] => Or.inr rfl
  | a :: as, b :: bs => by
    rcases Nat.lt_trichotomy a.toNat b.toNat with h | h | h
    · exact Or.inl (charListLE_cons_iff.mpr (Or.inl h))
    · rcases charListLE_total as bs with h' | h'
      · exact Or.inl (charListLE_cons_iff.mpr (Or.inr ⟨h, h'⟩))
      · exact Or.inr (charListLE_cons_iff.mpr (Or.inr ⟨h.symm, h'⟩))
    · exact Or.inr (charListLE_cons_iff.mpr (Or.inl h))

theorem charListLE_trans : ∀ {a b c : List Char},
    charListLE a b = true → charListLE b c = true → charListLE a c = true
  | [], _, _, _, _ => rfl
  | _ :: _, [], _, h1, _ => by cases h1
  | _ :: _, _ :: _, [], _, h2 => by cases h2
  | a :: as, b :: bs, c :: cs, h1, h2 => by
    rcases charListLE_cons_iff.mp h1 with h1 | ⟨h1e, h1r⟩ <;>
      rcases charListLE_cons_iff.mp h2 with h2 | ⟨h2e, h2r⟩
    · exact charListLE_cons_iff.mpr (Or.inl (Nat.lt_trans h1 h2))
    · exact charListLE_cons_iff.mpr (Or.inl (h2e ▸ h1))
    · exact charListLE_cons_iff.mpr (Or.inl (h1e ▸ h2))
    · exact charListLE_cons_iff.mpr
        (Or.inr ⟨h1e.trans h2e, charListLE_trans h1r h2r⟩)

theorem charListLE_antisymm : ∀ {a b : List Char},
    charListLE a b = true → charListLE b a = true → a = b
  | [], [], _, _ => rfl
  | [], _ :: _, _, h2 => by cases h2
  | _ :: _, [], h1, _ => by cases h1
  | a :: as, b :: bs, h1, h2 => by
    rcases charListLE_cons_iff.mp h1 with h1 | ⟨h1e, h1r⟩ <;>
      rcases charListLE_cons_iff.mp h2 with h2 | ⟨h2e, h2r⟩
    · exact absurd h2 (Nat.lt_asymm h1)
    · exact absurd h1 (h2e ▸ Nat.lt_irrefl _)
    · exact absurd h2 (h1e ▸ Nat.lt_irrefl _)
    · rw [charInj h1e, charListLE_antisymm h1r h2r]

theorem charListLt_trans : ∀ {a b c : List Char},
    charListLt a b = true → charListLt b c = true → charListLt a c = true
  | [], [], _, h1, _ => by cases h1
  | [], _ :: _, [], _, h2 => by cases h2
  | [], _ :: _, _ :: _, _, _ => rfl
  | _ :: _, [], _, h1, _ => by cases h1
  | _ :: _, _ :: _, [], _, h2 => by cases h2
  | a :: as, b :: bs, c :: cs, h1, h2 => by
    rcases charListLt_cons_iff.mp h1 with h1 | ⟨h1e, h1r⟩ <;>
      rcases charListLt_cons_iff.mp h2 with h2 | ⟨h2e, h2r⟩
    · exact charListLt_cons_iff.mpr (Or.inl (Nat.lt_trans h1 h2))
    · exact charListLt_cons_iff.mpr (Or.inl (h2e ▸ h1))
    · exact charListLt_cons_iff.mpr (Or.inl (h1e ▸ h2))
    · exact charListLt_cons_iff.mpr
        (Or.inr ⟨h1e.trans h2e, charListLt_trans h1r h2r⟩)

theorem charListLt_iff : ∀ a b : List Char,
    charListLt a b = true ↔ charListLE a b = true ∧ a ≠ b
  | [], [] => by simp [charListLt, charListLE]
  | [], _ :: _ => by simp [charListLt, charListLE]
  | _ :: _, [] => by simp [charListLt, charListLE]
  | a :: as, b :: bs => by
    rw [charListLt_cons_iff, charListLE_cons_iff]
    rcases Nat.lt_trichotomy a.toNat b.toNat with h | h | h
    · have hne : a ≠ b := fun hc => absurd (hc ▸ h) (Nat.lt_irrefl _)
      simp [h, hne]
    · have heq : a = b := charInj h
      subst heq
      have h1 : ¬ a.toNat < a.toNat := Nat.lt_irrefl _
      rw [charListLt_iff as bs]
      simp [h1]
    · have h1 : ¬ a.toNat < b.toNat := Nat.lt_asymm h
      have h2 : a.toNat ≠ b.toNat := Nat.ne_of_gt h
      simp [h1, h2]

theorem str_data_inj : ∀ {a b : String}, a.data = b.data → a = b
  | ⟨_⟩, ⟨_⟩, rfl => rfl

theorem strLE_refl (a : String) : strLE a a = true := charListLE_refl _

theorem strLE_total (a b : String) : strLE a b = true ∨ strLE b a = true :=
  charListLE_total _ _

theorem strLE_trans {a b c : String} (h1 : strLE a b = true)
    (h2 : strLE b c = true) : strLE a c = true :=
  charListLE_trans h1 h2

theorem strLE_antisymm {a b : String} (h1 : strLE a b = true)
    (h2 : strLE b a = true) : a = b :=
  str_data_inj (charListLE_antisymm h1 h2)

theorem strLt_trans {a b c : String} (h1 : strLt a b = true)
    (h2 : strLt b c = true) : strLt a c = true :=
  charListLt_trans h1 h2

theorem strLt_iff {a b : String} :
    strLt a b = true ↔ strLE a b = true ∧ a ≠ b := by
  unfold strLt strLE
  rw [charListLt_iff]
  constructor
  · rintro ⟨h1, h2⟩
    exact ⟨h1, fun hc => h2 (hc ▸ rfl)⟩
  · rintro ⟨h1, h2⟩
    exact ⟨h1, fun hc => h2 (str_data_inj hc)⟩

/-- Insert an entry into a name-sorted entry list. -/
def insertEntry (e : TreeEntry) : List TreeEntry → List TreeEntry
  | [] => [e]
  | x :: xs => if strLE e.path x.path then e :: x :: xs else x :: insertEntry e xs

/-- Canonical sort by entry name, as git's tree serialisation does. -/
def sortEntries : List TreeEntry → List TreeEntry
  | [] => []
  | x :: xs => insertEntry x (sortEntries xs)

/-- `git.writeTree`: the stored tree object for an entry list (canonically
sorted). -/
def writeTree (es : List TreeEntry) : Obj := .tree (sortEntries es)

/-- Look up an entry by name (`entries.find(e => e.path === part)`). -/
def findEntry (es : List TreeEntry) (p : String) : Option TreeEntry :=
  es.find? (fun e => e.path = p)

/-- upsertTree from add-file-deep.js lines 22–71.  `t?` is the parent tree
hash or absent; `parts` the path segments; `blobObj` the already-written
blob.  Reads the existing entries (empty list when absent), removes any
entry named like the current segment, then either inserts the blob (final
segment) or recurses into the existing entry's hash — whatever its type —
and inserts a tree entry for the result. -/
def upsertTree (t? : Option Obj) (parts : List String) (blobObj : Obj) :
    Except Err Obj :=
  match parts with
  | [] => .error .emptyPath
  | c :: rest => do
    let es ← match t? with
      | none => pure []
      | some t => readTree t
    let filtered := es.filter (fun e => e.path ≠ c)
    match rest with
    | [] => pure (writeTree (filtered ++ [(c, "100644", blobObj)]))
    | _ => do
      let existing := findEntry es c
      let sub? := existing.map (·.oid)
      let newSub ← upsertTree sub? rest blobObj
      pure (writeTree (filtered ++ [(c, "040000", newSub)]))

theorem upsertTree_fresh_chain_check :
    upsertTree none ["a", "b"] (.blob "X") =
    .ok (.tree [("a", "040000", .tree [("b", "100644", .blob "X")])]) := by
  decide

/- Recursing through a blob entry fails: readTree on the blob's hash. -/
theorem upsertTree_blob_segment_check :
    upsertTree (some (.tree [("a", "100644", .blob "old")]))
    ["a", "b"] (.blob "X") = .error .objectType := by decide

/- Final-segment type change is accepted (dir replaced by file). -/
theorem upsertTree_type_change_check :
    upsertTree (some (.tree [("a", "040000", .tree [("b", "100644", .blob "X")])]))
    ["a"] (.blob "Y") = .ok (.tree [("a", "100644", .blob "Y")]) := by decide

/-- Remove the first entry with the given name
(`entries.splice(entryIndex, 1)` after `findIndex`). -/
def eraseFirst (c : String) : List TreeEntry → List TreeEntry
  | [] => []
  | e :: es => if e.path = c then es else e :: eraseFirst c es

/-- Replace the oid of the first entry with the given name, keeping its mode
(`entries[entryIndex].oid = newSubTreeSha`). -/
def updateOid (c : String) (newSub : Obj) : List TreeEntry → List TreeEntry
  | [] => []
  | e :: es =>
    if e.path = c then (e.path, e.mode, newSub) :: es else e :: updateOid c newSub es

/-- removeTreeEntry from remove-file-deep.js lines 22–68, in writer style:
the first component is the list of tree objects written to the store.
Returns `some newTree` when content changed, `none` when the tree became
empty (signalling the caller to delete its entry), or an error when a
segment is missing / a non-terminal segment is not a directory.
(The scripts never call this with an empty segment list; that case is the
modelling artefact `emptyPath`.) -/
def removeTreeEntry (t : Obj) (parts : List String) :
    List Obj × Except Err (Option Obj) :=
  match parts with
  | [] => ([], .error .emptyPath)
  | c :: rest =>
    match readTree t with
    | .error e => ([], .error e)
    | .ok es =>
      match findEntry es c with
      | none => ([], .error (.notFound c))
      | some e =>
        match rest with
        | [] =>
          let es' := eraseFirst c es
          if es' = [] then ([], .ok none)
          else ([writeTree es'], .ok (some (writeTree es')))
        | _ =>
          if e.etype = "tree" then
            match removeTreeEntry e.oid rest with
            | (sublog, .error err) => (sublog, .error err)
            | (sublog, .ok none) =>
              let es' := eraseFirst c es
              if es' = [] then (sublog, .ok none)
              else (sublog ++ [writeTree es'], .ok (some (writeTree es')))
            | (sublog, .ok (some sub)) =>
              let es' := updateOid c sub es
              if es' = [] then (sublog, .ok none)
              else (sublog ++ [writeTree es'], .ok (some (writeTree es')))
          else ([], .error (.typeMismatch c))

/-- The root-level wrapper of remove-file-deep.js main lines 92–103: a `none`
result at the root is materialised as the explicit empty tree. -/
def removeFileRoot (root : Obj) (parts : List String) :
    List Obj × Except Err Obj :=
  match removeTreeEntry root parts with
  | (log, .error e) => (log, .error e)
  | (log, .ok none) => (log ++ [writeTree []], .ok (writeTree []))
  | (log, .ok (some t)) => (log, .ok t)

/-- resolveBlobEntry from read-file.js lines 18–48: walk the path, failing
with NotFound on a missing segment and TypeMismatch when traversing into a
non-directory; returns the final entry's `(mode, type, oid)`. -/
def resolveBlobEntry (root : Obj) (parts : List String) :
    Except Err (String × String × Obj) :=
  match parts with
  | [] => .error .emptyPath
  | c :: rest => do
    let es ← readTree root
    match findEntry es c with
    | none => .error (.notFound c)
    | some e =>
      match rest with
      | [] => .ok (e.mode, e.etype, e.oid)
      | _ =>
        if e.etype = "tree" then resolveBlobEntry e.oid rest
        else .error (.typeMismatch c)

theorem resolveBlobEntry_check :
    resolveBlobEntry (.tree [("a", "040000", .tree [("b", "100644", .blob "X")])])
    ["a", "b"] = .ok ("100644", "blob", .blob "X") := by decide

/-- `new Set([...base.keys(), ...ours.keys(), ...theirs.keys()])`: keep the
first occurrence of each name, preserving insertion order. -/
def dedupAux (seen : List String) : List String → List String
  | [] => []
  | x :: xs => if x ∈ seen then dedupAux seen xs else x :: dedupAux (x :: seen) xs

def dedup (l : List String) : List String := dedupAux [] l

/-- Read a tree's entries, or the empty list when the hash is absent
(merge-branch.js `readEntries`). -/
def readEntriesOpt : Option Obj → Except Err (List TreeEntry)
  | none => .ok []
  | some t => readTree t

/-- `resolutions[p]` — a JS object lookup.  A value that is the empty string
is falsy, so the code treats it like a missing resolution. -/
def lookupRes (res : List (String × String)) (p : String) : Option String :=
  (res.find? (fun r => r.1 = p)).map (·.2)

/-- The per-name loop body of mergeTrees (merge-branch.js lines 40–92),
parameterised by the recursive call `mt` on the three subtree hashes.
`res` is the parsed resolutions object; note the code looks it up with the
bare entry name at the current directory level, not with the full path,
and a resolution whose content is the empty string is falsy and ignored. -/
def mergeLoop (mt : Option Obj → Option Obj → Option Obj →
      List Obj × Except Err (Option Obj))
    (res : List (String × String)) (bes oes tes : List TreeEntry) :
    List String → List Obj × Except Err (List TreeEntry)
  | [] => ([], .ok [])
  | p :: ps =>
    let base := findEntry bes p
    let ours := findEntry oes p
    let theirs := findEntry tes p
    let baseSha := base.map TreeEntry.oid
    let ourSha := ours.map TreeEntry.oid
    let theirSha := theirs.map TreeEntry.oid
    let isDir := (ours.any (fun e => e.etype = "tree")) ||
                 (theirs.any (fun e => e.etype = "tree"))
    if isDir then
      match mt baseSha ourSha theirSha with
      | (sublog, .error e) => (sublog, .error e)
      | (sublog, .ok none) =>
        match mergeLoop mt res bes oes tes ps with
        | (l, r) => (sublog ++ l, r)
      | (sublog, .ok (some m)) =>
        match mergeLoop mt res bes oes tes ps with
        | (l, r) => (sublog ++ l, r.map (fun es => (p, "040000", m) :: es))
    else
      if ourSha = theirSha then
        match mergeLoop mt res bes oes tes ps with
        | (l, r) => (l, r.map (fun es => ours.toList ++ es))
      else if ourSha = baseSha ∧ theirSha ≠ baseSha then
        match mergeLoop mt res bes oes tes ps with
        | (l, r) => (l, r.map (fun es => theirs.toList ++ es))
      else if ourSha ≠ baseSha ∧ theirSha = baseSha then
        match mergeLoop mt res bes oes tes ps with
        | (l, r) => (l, r.map (fun es => ours.toList ++ es))
      else
        match lookupRes res p with
        | some content =>
          if content = "" then ([], .error (.mergeConflict p))
          else
            match mergeLoop mt res bes oes tes ps with
            | (l, r) =>
              (Obj.blob content :: l,
               r.map (fun es => (p, "100644", Obj.blob content) :: es))
        | none => ([], .error (.mergeConflict p))

/-- One directory level of mergeTrees (merge-branch.js lines 22–96),
parameterised by the recursive call for subtrees. -/
def mergeStep (mt : Option Obj → Option Obj → Option Obj →
      List Obj × Except Err (Option Obj))
    (res : List (String × String)) (b o t : Option Obj) :
    List Obj × Except Err (Option Obj) :=
  match readEntriesOpt b with
  | .error e => ([], .error e)
  | .ok bes =>
    match readEntriesOpt o with
    | .error e => ([], .error e)
    | .ok oes =>
      match readEntriesOpt t with
      | .error e => ([], .error e)
      | .ok tes =>
        let allPaths :=
          dedup (bes.map TreeEntry.path ++ oes.map TreeEntry.path ++
                 tes.map TreeEntry.path)
        match mergeLoop mt res bes oes tes allPaths with
        | (log, .error e) => (log, .error e)
        | (log, .ok []) => (log, .ok none)
        | (log, .ok es) => (log ++ [writeTree es], .ok (some (writeTree es)))

/-- mergeTrees from merge-branch.js, in writer style with fuel (the
recursion is over hash-indirected subtrees; any fuel at least the tree
depth behaves like the unbounded recursion, and running out surfaces as
the distinguished `outOfFuel` error). -/
def mergeTrees (fuel : Nat) (res : List (String × String)) :
    Option Obj → Option Obj → Option Obj →
      List Obj × Except Err (Option Obj) :=
  match fuel with
  | 0 => fun _ _ _ => ([], .error .outOfFuel)
  | fuel + 1 => mergeStep (mergeTrees fuel res) res

/-! ## The publish layer: commits and ref updates

The ref layer of the scripts works purely on commit SHAs (strings), so we
model it that way: a `RefMap` maps ref names to the sha they point at.
Commit objects themselves appear only as data written to the store. -/

/-- The mutable ref store: ref name → commit sha. -/
abbrev RefMap := String → Option String

def RefMap.set (refs : RefMap) (name sha : String) : RefMap :=
  fun n => if n = name then some sha else refs n

/-- The commit object the scripts write (author/committer omitted: they
play no role in any claim). -/
structure CommitData where
  tree : Option Obj
  parents : List String
  message : String
deriving DecidableEq, Repr

/-- Final ref update of add-file-deep.js (lines 133–155): re-resolve the
ref (catching a missing ref as `none`), compare with the parent sha
observed at the start, and only then force-write. -/
def addFileRefUpdate (refs : RefMap) (refName : String)
    (parentSha : Option String) (commitSha : String) :
    RefMap × Except Err Unit :=
  let currentSha := refs refName
  if currentSha = parentSha then (refs.set refName commitSha, .ok ())
  else (refs, .error .stale)

/-- Final ref update of remove-file-deep.js (lines 127–140): re-resolve the
ref — here a vanished ref is NOT caught and surfaces as NotFound — compare
with the observed parent sha, then force-write. -/
def removeFileRefUpdate (refs : RefMap) (refName : String)
    (parentSha : String) (commitSha : String) :
    RefMap × Except Err Unit :=
  match refs refName with
  | none => (refs, .error (.notFound refName))
  | some currentSha =>
    if currentSha = parentSha then (refs.set refName commitSha, .ok ())
    else (refs, .error .stale)

/-- Final ref update of merge-branch.js (line 134): an unconditional
force-write of the destination ref.  The dest sha observed at the start of
the merge is not consulted at all. -/
def mergeRefUpdate (refs : RefMap) (destRef : String) (mergeCommitSha : String) :
    RefMap × Except Err Unit :=
  (refs.set destRef mergeCommitSha, .ok ())

/-- Observable outcome of one publish flow: the tree/blob objects written,
the commit object written (if any), the resulting ref store and the final
result. -/
structure FlowResult where
  written : List Obj
  commitWritten : Option CommitData
  refs : RefMap
  outcome : Except Err String

/-- remove-file-deep.js main, from the already-resolved parent commit
(`parentSha`, whose tree is `root`) to the ref update.  `newCommitSha`
stands for the content hash `git.writeCommit` returns. -/
def removeFileFlow (refs : RefMap) (refName : String) (parentSha : String)
    (root : Obj) (parts : List String) (newCommitSha : String) : FlowResult :=
  match removeFileRoot root parts with
  | (log, .error e) => ⟨log, none, refs, .error e⟩
  | (log, .ok newRoot) =>
    let c : CommitData := ⟨some newRoot, [parentSha], "Remove"⟩
    match removeFileRefUpdate refs refName parentSha newCommitSha with
    | (refs', .ok ()) => ⟨log, some c, refs', .ok newCommitSha⟩
    | (refs', .error e) => ⟨log, some c, refs', .error e⟩

/-- merge-branch.js main lines 116–134, from the three resolved commit
trees to the (unconditional) ref update. -/
def mergeFlow (fuel : Nat) (res : List (String × String))
    (baseTree oursTree theirsTree : Option Obj) (refs : RefMap)
    (destRef : String) (destSha sourceSha : String) (newCommitSha : String) :
    FlowResult :=
  match mergeTrees fuel res baseTree oursTree theirsTree with
  | (log, .error e) => ⟨log, none, refs, .error e⟩
  | (log, .ok m) =>
    let c : CommitData := ⟨m, [destSha, sourceSha], "Merge"⟩
    match mergeRefUpdate refs destRef newCommitSha with
    | (refs', .ok ()) => ⟨log, some c, refs', .ok newCommitSha⟩
    | (refs', .error e) => ⟨log, some c, refs', .error e⟩

/-! ## Well-formedness and canonical form of stored trees -/

/-- Entries of a tree object (empty for a blob). -/
def Obj.entriesOf : Obj → List TreeEntry
  | .blob _ => []
  | .tree es => es

mutual

/-- Well-formed object: every tree level has distinct entry names.  All
trees actually stored by git satisfy this. -/
def wfObj : Obj → Bool
  | .blob _ => true
  | .tree es => decide (es.map TreeEntry.path).Nodup && wfEntries es

def wfEntries : List (String × String × Obj) → Bool
  | [] => true
  | (_, _, o) :: es => wfObj o && wfEntries es

end

/-- Entry names strictly sorted, as git serialises them. -/
def pathsSorted : List TreeEntry → Bool
  | [] => true
  | [_] => true
  | a :: b :: es => strLt a.path b.path && pathsSorted (b :: es)

mutual

/-- Canonical stored tree: names strictly sorted; each entry's mode agrees
with its object kind ("040000" exactly for trees); subtrees are themselves
canonical and non-empty (git never stores an empty non-root tree). -/
def canonObj : Obj → Bool
  | .blob _ => true
  | .tree es => pathsSorted es && canonEntries es

def canonEntries : List (String × String × Obj) → Bool
  | [] => true
  | (_, m, o) :: es =>
    (match o with
     | .blob _ => decide (m ≠ "040000")
     | .tree subs => decide (m = "040000") && decide (subs ≠ [])) &&
    canonObj o && canonEntries es

end

/-! ## Sorting kit: `writeTree`'s canonical order -/

def entryLE (a b : TreeEntry) : Prop := strLE a.path b.path = true

def entryLT (a b : TreeEntry) : Prop := strLt a.path b.path = true

theorem insertEntry_perm (e : TreeEntry) (l : List TreeEntry) :
    List.Perm (insertEntry e l) (e :: l) := by
  induction l with
  | nil => simp [insertEntry]
  | cons x xs ih =>
    simp only [insertEntry]
    split
    · exact List.Perm.refl _
    · exact ((ih.cons x).trans (List.Perm.swap e x xs))

theorem sortEntries_perm (l : List TreeEntry) : List.Perm (sortEntries l) l := by
  induction l with
  | nil => simp [sortEntries]
  | cons x xs ih =>
    exact (insertEntry_perm x (sortEntries xs)).trans (ih.cons x)

theorem sorted_insertEntry {l : List TreeEntry} (e : TreeEntry)
    (h : l.Sorted entryLE) : (insertEntry e l).Sorted entryLE := by
  induction l with
  | nil => simp [insertEntry, List.Sorted]
  | cons x xs ih =>
    simp only [insertEntry]
    split
    · rename_i hle
      refine List.sorted_cons.mpr ⟨?_, h⟩
      intro b hb
      rcases List.mem_cons.mp hb with hb | hb
      · exact hb ▸ hle
      · exact strLE_trans hle ((List.sorted_cons.mp h).1 b hb)
    · rename_i hgt
      have hx := List.sorted_cons.mp h
      refine List.sorted_cons.mpr ⟨?_, ih hx.2⟩
      intro b hb
      have hb' := List.mem_cons.mp ((insertEntry_perm e xs).mem_iff.mp hb)
      rcases hb' with hb' | hb'
      · subst hb'
        exact Or.resolve_left (strLE_total _ _) hgt
      · exact hx.1 b hb'

theorem sorted_sortEntries (l : List TreeEntry) :
    (sortEntries l).Sorted entryLE := by
  induction l with
  | nil => simp [sortEntries, List.Sorted]
  | cons x xs ih => exact sorted_insertEntry x ih

theorem sortEntries_eq_self {l : List TreeEntry} (h : l.Sorted entryLE) :
    sortEntries l = l := by
  induction l with
  | nil => rfl
  | cons x xs ih =>
    have hx := List.sorted_cons.mp h
    simp only [sortEntries, ih hx.2]
    cases xs with
    | nil => rfl
    | cons y ys =>
      have hxy : strLE x.path y.path = true := hx.1 y (by simp)
      simp only [insertEntry]
      rw [if_pos hxy]

theorem sorted_lt_of_nodup {l : List TreeEntry} (hs : l.Sorted entryLE)
    (hn : (l.map TreeEntry.path).Nodup) : l.Sorted entryLT := by
  induction l with
  | nil => simp [List.Sorted]
  | cons x xs ih =>
    have hx := List.sorted_cons.mp hs
    simp only [List.map_cons, List.nodup_cons] at hn
    refine List.sorted_cons.mpr ⟨?_, ih hx.2 hn.2⟩
    intro b hb
    have hle : strLE x.path b.path = true := hx.1 b hb
    have hne : x.path ≠ b.path := fun hpp =>
      hn.1 (hpp ▸ List.mem_map_of_mem TreeEntry.path hb)
    exact strLt_iff.mpr ⟨hle, hne⟩

theorem eq_of_perm_sorted {l₁ l₂ : List TreeEntry} (hp : List.Perm l₁ l₂)
    (h₁ : l₁.Sorted entryLT) (h₂ : l₂.Sorted entryLT) : l₁ = l₂ := by
  haveI : IsAntisymm TreeEntry entryLT := by
    refine ⟨fun a b hab hba => ?_⟩
    obtain ⟨le1, ne1⟩ := strLt_iff.mp hab
    obtain ⟨le2, -⟩ := strLt_iff.mp hba
    exact absurd (strLE_antisymm le1 le2) ne1
  exact List.eq_of_perm_of_sorted hp h₁ h₂

theorem sorted_lt_iff_paths {l : List TreeEntry} :
    l.Sorted entryLT ↔
      (l.map TreeEntry.path).Sorted (fun a b => strLt a b = true) := by
  unfold List.Sorted
  rw [List.pairwise_map]
  rfl

theorem pathsSorted_iff_sorted_lt {l : List TreeEntry} :
    pathsSorted l = true ↔ l.Sorted entryLT := by
  induction l with
  | nil => simp [pathsSorted, List.Sorted]
  | cons x xs ih =>
    cases xs with
    | nil => simp [pathsSorted, List.Sorted, entryLT]
    | cons y ys =>
      rw [List.sorted_cons, ← ih]
      simp only [pathsSorted, Bool.and_eq_true, decide_eq_true_eq]
      constructor
      · rintro ⟨hxy, hs⟩
        have hys : (y :: ys).Sorted entryLT := ih.mp hs
        refine ⟨fun b hb => ?_, hs⟩
        rcases List.mem_cons.mp hb with hb | hb
        · exact hb ▸ hxy
        · exact strLt_trans hxy ((List.sorted_cons.mp hys).1 b hb)
      · rintro ⟨hall, hs⟩
        exact ⟨hall y (by simp), hs⟩

theorem nodup_of_sorted_lt {l : List TreeEntry} (h : l.Sorted entryLT) :
    (l.map TreeEntry.path).Nodup := by
  haveI : IsIrrefl String (fun a b => strLt a b = true) :=
    ⟨fun a ha => (strLt_iff.mp ha).2 rfl⟩
  exact (sorted_lt_iff_paths.mp h).nodup

/-! ### findEntry / filter / eraseFirst / updateOid lemmas -/

theorem findEntry_none_iff {l : List TreeEntry} {p : String} :
    findEntry l p = none ↔ ∀ e ∈ l, e.path ≠ p := by
  unfold findEntry
  rw [List.find?_eq_none]
  simp

theorem findEntry_mem {l : List TreeEntry} {p : String} {e : TreeEntry}
    (h : findEntry l p = some e) : e ∈ l ∧ e.path = p := by
  unfold findEntry at h
  refine ⟨List.mem_of_find?_eq_some h, ?_⟩
  have := List.find?_some h
  simpa using this

theorem findEntry_some_of_mem_nodup {l : List TreeEntry} {p : String}
    {e : TreeEntry} (hn : (l.map TreeEntry.path).Nodup)
    (hm : e ∈ l) (hp : e.path = p) : findEntry l p = some e := by
  induction l with
  | nil => cases hm
  | cons x xs ih =>
    simp only [List.map_cons, List.nodup_cons] at hn
    rcases List.mem_cons.mp hm with hm | hm
    · subst hm
      unfold findEntry
      simp [List.find?, hp]
    · have hxp : x.path ≠ p := by
        intro hx
        apply hn.1
        rw [hx, ← hp]
        exact List.mem_map_of_mem TreeEntry.path hm
      unfold findEntry at ih ⊢
      simp only [List.find?]
      cases hd : decide (x.path = p) with
      | true => exact absurd (of_decide_eq_true hd) hxp
      | false => exact ih hn.2 hm

theorem findEntry_perm_nodup {l l' : List TreeEntry} {p : String}
    (hp : List.Perm l l') (hn : (l.map TreeEntry.path).Nodup) :
    findEntry l p = findEntry l' p := by
  have hn' : (l'.map TreeEntry.path).Nodup := ((hp.map _).nodup_iff).mp hn
  cases hf : findEntry l p with
  | some e =>
    obtain ⟨hm, hpp⟩ := findEntry_mem hf
    exact (findEntry_some_of_mem_nodup hn' (hp.mem_iff.mp hm) hpp).symm
  | none =>
    cases hf' : findEntry l' p with
    | none => rfl
    | some e =>
      obtain ⟨hm, hpp⟩ := findEntry_mem hf'
      exact absurd hpp (findEntry_none_iff.mp hf e (hp.mem_iff.mpr hm))

theorem findEntry_sortEntries {l : List TreeEntry} {p : String}
    (hn : (l.map TreeEntry.path).Nodup) :
    findEntry (sortEntries l) p = findEntry l p :=
  findEntry_perm_nodup (sortEntries_perm l)
    (((sortEntries_perm l).map TreeEntry.path).nodup_iff.mpr hn)

theorem findEntry_append_right {l₁ l₂ : List TreeEntry} {p : String}
    (h : findEntry l₁ p = none) :
    findEntry (l₁ ++ l₂) p = findEntry l₂ p := by
  induction l₁ with
  | nil => simp
  | cons x xs ih =>
    unfold findEntry at h ih ⊢
    simp only [List.find?, List.cons_append] at h ⊢
    cases hx : decide (x.path = p) with
    | true => rw [hx] at h; cases h
    | false =>
      rw [hx] at h
      simp only [hx]
      exact ih h

theorem filter_eq_self_of_none {l : List TreeEntry} {c : String}
    (h : findEntry l c = none) :
    l.filter (fun e => e.path ≠ c) = l := by
  rw [List.filter_eq_self]
  intro e he
  simpa using findEntry_none_iff.mp h e he

theorem findEntry_filter_self {l : List TreeEntry} {c : String} :
    findEntry (l.filter (fun e => e.path ≠ c)) c = none := by
  rw [findEntry_none_iff]
  intro e he
  simpa using (List.mem_filter.mp he).2

theorem findEntry_filter_ne {l : List TreeEntry} {c p : String} (h : p ≠ c) :
    findEntry (l.filter (fun e => e.path ≠ c)) p = findEntry l p := by
  induction l with
  | nil => rfl
  | cons x xs ih =>
    unfold findEntry at ih ⊢
    by_cases hx : x.path = c
    · rw [List.filter_cons_of_neg (by simpa using hx)]
      simp only [List.find?]
      cases hd : decide (x.path = p) with
      | true => exact absurd (hx.symm.trans (of_decide_eq_true hd)) (Ne.symm h)
      | false => exact ih
    · rw [List.filter_cons_of_pos (by simpa using hx)]
      simp only [List.find?]
      cases hd : decide (x.path = p) with
      | true => rfl
      | false => exact ih

theorem perm_cons_filter {l : List TreeEntry} {c : String} {e : TreeEntry}
    (hn : (l.map TreeEntry.path).Nodup) (h : findEntry l c = some e) :
    List.Perm l (e :: l.filter (fun x => x.path ≠ c)) := by
  induction l with
  | nil => cases h
  | cons x xs ih =>
    simp only [List.map_cons, List.nodup_cons] at hn
    unfold findEntry at h
    simp only [List.find?] at h
    by_cases hx : x.path = c
    · rw [decide_eq_true hx] at h
      cases h
      rw [List.filter_cons_of_neg (by simpa using hx)]
      have hself : xs.filter (fun x => x.path ≠ c) = xs := by
        apply filter_eq_self_of_none
        rw [findEntry_none_iff]
        intro y hy hyc
        apply hn.1
        rw [hx, ← hyc]
        exact List.mem_map_of_mem TreeEntry.path hy
      rw [hself]
    · rw [decide_eq_false hx] at h
      rw [List.filter_cons_of_pos (by simpa using hx)]
      exact ((ih hn.2 h).cons x).trans (List.Perm.swap e x _)

theorem eraseFirst_eq_filter {l : List TreeEntry} {c : String}
    (hn : (l.map TreeEntry.path).Nodup) :
    eraseFirst c l = l.filter (fun e => e.path ≠ c) := by
  induction l with
  | nil => rfl
  | cons x xs ih =>
    simp only [List.map_cons, List.nodup_cons] at hn
    unfold eraseFirst
    by_cases hx : x.path = c
    · rw [if_pos hx, List.filter_cons_of_neg (by simpa using hx)]
      symm
      apply filter_eq_self_of_none
      rw [findEntry_none_iff]
      intro y hy hyc
      apply hn.1
      rw [hx, ← hyc]
      exact List.mem_map_of_mem TreeEntry.path hy
    · rw [if_neg hx, List.filter_cons_of_pos (by simpa using hx)]
      rw [ih hn.2]

theorem updateOid_map_path (c : String) (v : Obj) (l : List TreeEntry) :
    (updateOid c v l).map TreeEntry.path = l.map TreeEntry.path := by
  induction l with
  | nil => rfl
  | cons x xs ih =>
    unfold updateOid
    by_cases hx : x.path = c
    · rw [if_pos hx]
      simp [TreeEntry.path]
    · rw [if_neg hx]
      simp [ih]

theorem updateOid_perm {l : List TreeEntry} {c : String} {v : Obj}
    {f : TreeEntry} (hn : (l.map TreeEntry.path).Nodup)
    (h : findEntry l c = some f) :
    List.Perm (updateOid c v l)
      ((c, f.mode, v) :: l.filter (fun x => x.path ≠ c)) := by
  induction l with
  | nil => cases h
  | cons x xs ih =>
    simp only [List.map_cons, List.nodup_cons] at hn
    unfold findEntry at h
    simp only [List.find?] at h
    unfold updateOid
    by_cases hx : x.path = c
    · rw [decide_eq_true hx] at h
      cases h
      rw [if_pos hx, List.filter_cons_of_neg (by simpa using hx)]
      have hself : xs.filter (fun x => x.path ≠ c) = xs := by
        apply filter_eq_self_of_none
        rw [findEntry_none_iff]
        intro y hy hyc
        apply hn.1
        rw [hx, ← hyc]
        exact List.mem_map_of_mem TreeEntry.path hy
      rw [hself, hx]
    · rw [decide_eq_false hx] at h
      rw [if_neg hx, List.filter_cons_of_pos (by simpa using hx)]
      exact ((ih hn.2 h).cons x).trans (List.Perm.swap _ x _)

/-! ### Well-formedness / canonical form bridges -/

/-- Well-formedness of an optional root. -/
def wfOpt : Option Obj → Bool
  | none => true
  | some t => wfObj t

theorem wf_tree_iff {es : List TreeEntry} :
    wfObj (.tree es) = true ↔
      (es.map TreeEntry.path).Nodup ∧ wfEntries es = true := by
  simp [wfObj]

theorem wfObj_of_mem {es : List TreeEntry} {e : TreeEntry}
    (h : wfEntries es = true) (hm : e ∈ es) : wfObj e.oid = true := by
  induction es with
  | nil => cases hm
  | cons x xs ih =>
    obtain ⟨n, m, o⟩ := x
    simp only [wfEntries, Bool.and_eq_true] at h
    rcases List.mem_cons.mp hm with hm | hm
    · subst hm
      exact h.1
    · exact ih h.2 hm

theorem canon_tree_iff {es : List TreeEntry} :
    canonObj (.tree es) = true ↔
      pathsSorted es = true ∧ canonEntries es = true := by
  simp [canonObj]

theorem canon_nodup {es : List TreeEntry} (h : canonObj (.tree es) = true) :
    (es.map TreeEntry.path).Nodup :=
  nodup_of_sorted_lt (pathsSorted_iff_sorted_lt.mp (canon_tree_iff.mp h).1)

theorem canonEntries_of_mem {es : List TreeEntry} {e : TreeEntry}
    (h : canonEntries es = true) (hm : e ∈ es) :
    (match e.oid with
     | .blob _ => e.mode ≠ "040000"
     | .tree subs => e.mode = "040000" ∧ subs ≠ []) ∧
      canonObj e.oid = true := by
  induction es with
  | nil => cases hm
  | cons x xs ih =>
    obtain ⟨n, m, o⟩ := x
    simp only [canonEntries, Bool.and_eq_true] at h
    obtain ⟨⟨hkind, hc⟩, hrest⟩ := h
    rcases List.mem_cons.mp hm with hm | hm
    · subst hm
      refine ⟨?_, hc⟩
      cases o with
      | blob c => simpa [TreeEntry.oid, TreeEntry.mode] using hkind
      | tree subs =>
        simp only [TreeEntry.oid, TreeEntry.mode]
        simpa using hkind
    · exact ih hrest hm

/-! ### One level of upsert surgery -/

theorem nodup_upsert_level {es : List TreeEntry} {c m : String} {v : Obj}
    (hn : (es.map TreeEntry.path).Nodup) :
    (((es.filter (fun e => e.path ≠ c)) ++ [(c, m, v)]).map
      TreeEntry.path).Nodup := by
  rw [List.map_append]
  apply List.Nodup.append
  · exact hn.sublist ((List.filter_sublist es).map TreeEntry.path)
  · simp
  · intro p hp hp'
    simp only [List.map_cons, List.map_nil, List.mem_singleton,
      TreeEntry.path] at hp'
    subst hp'
    obtain ⟨e, he, hep⟩ := List.mem_map.mp hp
    have h2 := (List.mem_filter.mp he).2
    simp only [decide_eq_true_eq] at h2
    exact h2 hep

theorem findEntry_append_sing_ne {l : List TreeEntry} {c p m : String}
    {v : Obj} (hp : p ≠ c) :
    findEntry (l ++ [(c, m, v)]) p = findEntry l p := by
  induction l with
  | nil =>
    unfold findEntry
    simp only [List.nil_append, List.find?]
    cases hd : decide (TreeEntry.path (c, m, v) = p) with
    | true =>
      exact absurd (of_decide_eq_true hd) (by simpa [TreeEntry.path] using Ne.symm hp)
    | false => rfl
  | cons x xs ih =>
    unfold findEntry at ih ⊢
    simp only [List.cons_append, List.find?]
    cases hd : decide (x.path = p) with
    | true => rfl
    | false => exact ih

theorem findEntry_level_new {es : List TreeEntry} {c m : String} {v : Obj}
    (hn : (es.map TreeEntry.path).Nodup) :
    findEntry (sortEntries (es.filter (fun e => e.path ≠ c) ++ [(c, m, v)]))
      c = some (c, m, v) := by
  rw [findEntry_sortEntries (nodup_upsert_level hn)]
  rw [findEntry_append_right findEntry_filter_self]
  simp [findEntry, List.find?, TreeEntry.path]

theorem findEntry_level_old {es : List TreeEntry} {c m p : String} {v : Obj}
    (hn : (es.map TreeEntry.path).Nodup) (hp : p ≠ c) :
    findEntry (sortEntries (es.filter (fun e => e.path ≠ c) ++ [(c, m, v)]))
      p = findEntry es p := by
  rw [findEntry_sortEntries (nodup_upsert_level hn),
    findEntry_append_sing_ne hp, findEntry_filter_ne hp]

/-! ### Unfolding equations for upsertTree / resolveBlobEntry -/

theorem upsertTree_tree_last (es : List TreeEntry) (c : String) (X : Obj) :
    upsertTree (some (.tree es)) [c] X =
      .ok (writeTree (es.filter (fun e => e.path ≠ c) ++ [(c, "100644", X)])) := rfl

theorem upsertTree_tree_step (es : List TreeEntry) (c r : String)
    (rs : List String) (X : Obj) :
    upsertTree (some (.tree es)) (c :: r :: rs) X =
      Except.bind (upsertTree ((findEntry es c).map (·.oid)) (r :: rs) X)
        (fun newSub =>
          .ok (writeTree (es.filter (fun e => e.path ≠ c) ++
            [(c, "040000", newSub)]))) := rfl

theorem upsertTree_none_last (c : String) (X : Obj) :
    upsertTree none [c] X = .ok (writeTree [(c, "100644", X)]) := rfl

theorem upsertTree_none_step (c r : String) (rs : List String) (X : Obj) :
    upsertTree none (c :: r :: rs) X =
      Except.bind (upsertTree none (r :: rs) X)
        (fun newSub => .ok (writeTree [(c, "040000", newSub)])) := rfl

theorem upsertTree_blob (s : String) (c : String) (rest : List String)
    (X : Obj) :
    upsertTree (some (.blob s)) (c :: rest) X = .error .objectType := by
  cases rest <;> rfl

theorem resolveBlobEntry_tree (es : List TreeEntry) (c : String)
    (rest : List String) :
    resolveBlobEntry (.tree es) (c :: rest) =
      (match findEntry es c with
       | none => .error (.notFound c)
       | some e =>
         match rest with
         | [] => .ok (e.mode, e.etype, e.oid)
         | _ =>
           if e.etype = "tree" then resolveBlobEntry e.oid rest
           else .error (.typeMismatch c)) := rfl

/-- Reading back the upserted path yields a regular-mode blob entry holding
exactly the new blob. -/
theorem upsert_resolve (parts : List String) :
    ∀ (t? : Option Obj) (X t' : Obj), wfOpt t? = true →
      upsertTree t? parts X = .ok t' →
      resolveBlobEntry t' parts = .ok ("100644", "blob", X) := by
  induction parts with
  | nil =>
    intro t? X t' _ h
    simp [upsertTree] at h
  | cons c rest ih =>
    intro t? X t' hwf h
    have main : ∀ es : List TreeEntry, (es.map TreeEntry.path).Nodup →
        wfEntries es = true →
        upsertTree (some (.tree es)) (c :: rest) X = .ok t' →
        resolveBlobEntry t' (c :: rest) = .ok ("100644", "blob", X) := by
      intro es hnd hwfe h
      cases rest with
      | nil =>
        rw [upsertTree_tree_last] at h
        cases h
        rw [writeTree, resolveBlobEntry_tree, findEntry_level_new hnd]
        rfl
      | cons r rs =>
        rw [upsertTree_tree_step] at h
        cases hsub : upsertTree ((findEntry es c).map (·.oid)) (r :: rs) X with
        | error e =>
          rw [hsub] at h
          cases h
        | ok newSub =>
          rw [hsub] at h
          cases h
          rw [writeTree, resolveBlobEntry_tree, findEntry_level_new hnd]
          have hwfsub : wfOpt ((findEntry es c).map (·.oid)) = true := by
            cases hf : findEntry es c with
            | none => rfl
            | some e =>
              obtain ⟨hm, _⟩ := findEntry_mem hf
              simpa [wfOpt] using wfObj_of_mem hwfe hm
          have := ih ((findEntry es c).map (·.oid)) X newSub hwfsub hsub
          simpa [TreeEntry.etype, TreeEntry.mode, TreeEntry.oid] using this
    cases t? with
    | none =>
      cases rest with
      | nil =>
        rw [upsertTree_none_last] at h
        cases h
        rw [writeTree, resolveBlobEntry_tree]
        have : findEntry (sortEntries [(c, "100644", X)]) c = some (c, "100644", X) := by
          simp [sortEntries, insertEntry, findEntry, List.find?, TreeEntry.path]
        rw [this]
        rfl
      | cons r rs =>
        rw [upsertTree_none_step] at h
        cases hsub : upsertTree none (r :: rs) X with
        | error e =>
          rw [hsub] at h
          cases h
        | ok newSub =>
          rw [hsub] at h
          cases h
          rw [writeTree, resolveBlobEntry_tree]
          have hfind : findEntry (sortEntries [(c, "040000", newSub)]) c =
              some (c, "040000", newSub) := by
            simp [sortEntries, insertEntry, findEntry, List.find?, TreeEntry.path]
          rw [hfind]
          have := ih none X newSub rfl hsub
          simpa [TreeEntry.etype, TreeEntry.mode, TreeEntry.oid] using this
    | some t =>
      cases t with
      | blob s =>
        rw [upsertTree_blob] at h
        cases h
      | tree es =>
        have hw := wf_tree_iff.mp (by simpa [wfOpt] using hwf)
        exact main es hw.1 hw.2 h

/-- Shapes on which upsertTree succeeds: non-empty path, and every
non-terminal segment's existing entry (if any) refers to a tree object.
Mirrors the recursion of add-file-deep.js lines 22–71. -/
def upsertOkShape : Option Obj → List String → Bool
  | _, [] => false
  | none, _ :: _ => true
  | some (.blob _), _ :: _ => false
  | some (.tree es), c :: rest =>
    match rest with
    | [] => true
    | _ =>
      match findEntry es c with
      | none => upsertOkShape none rest
      | some e => upsertOkShape (some e.oid) rest

theorem upsertOkShape_none (parts : List String) (h : parts ≠ []) :
    upsertOkShape none parts = true := by
  cases parts with
  | nil => exact absurd rfl h
  | cons c rest => rfl

theorem upsert_total_of_shape (parts : List String) :
    ∀ (t? : Option Obj) (X : Obj), upsertOkShape t? parts = true →
      ∃ u, upsertTree t? parts X = .ok u := by
  induction parts with
  | nil =>
    intro t? X h
    cases t? with
    | none => simp [upsertOkShape] at h
    | some t => cases t <;> simp [upsertOkShape] at h
  | cons c rest ih =>
    intro t? X h
    cases t? with
    | none =>
      cases rest with
      | nil => exact ⟨_, upsertTree_none_last c X⟩
      | cons r rs =>
        obtain ⟨u, hu⟩ := ih none X (upsertOkShape_none _ (by simp))
        refine ⟨writeTree [(c, "040000", u)], ?_⟩
        rw [upsertTree_none_step, hu]
        rfl
    | some t =>
      cases t with
      | blob s => simp [upsertOkShape] at h
      | tree es =>
        cases rest with
        | nil => exact ⟨_, upsertTree_tree_last es c X⟩
        | cons r rs =>
          have hsub : upsertOkShape ((findEntry es c).map (·.oid)) (r :: rs) = true := by
            cases hf : findEntry es c with
            | none =>
              simpa using upsertOkShape_none (r :: rs) (by simp)
            | some e =>
              simp only [upsertOkShape] at h
              rw [hf] at h
              simpa using h
          obtain ⟨u, hu⟩ := ih ((findEntry es c).map (·.oid)) X hsub
          refine ⟨writeTree (es.filter (fun e => TreeEntry.path e ≠ c) ++ [(c, "040000", u)]), ?_⟩
          rw [upsertTree_tree_step, hu]
          rfl

/-! ## Claim C2 -/

/-- C2 counterexample: upsert is NOT total on every existing tree shape.
When a non-terminal path segment currently names a blob, the recursion
passes the blob's hash as a tree hash and reading it as a tree fails, so
`upsert({a: blob}, ["a","b"], X)` is a domain error, contrary to the claim
that the existing entry is silently replaced. -/
theorem c2_counterexample :
    upsertTree (some (.tree [("a", "100644", .blob "old")])) ["a", "b"]
      (.blob "X") = .error .objectType := by decide

/-- C2 (amended): upsert succeeds for every non-empty path with no empty
segments provided every non-terminal segment's existing entry is absent or
refers to a tree object; at the final segment any existing entry —
including a whole directory — is silently removed and replaced by a
regular blob entry.  But when a non-terminal segment currently names a
blob, the recursion reads the blob's hash as a tree and fails with an
object-type error instead of replacing it. -/
theorem c2_upsert_total_on_tree_shapes (t? : Option Obj) (parts : List String)
    (X : Obj) (h : upsertOkShape t? parts = true) :
    ∃ u, upsertTree t? parts X = .ok u :=
  upsert_total_of_shape parts t? X h

/-- C2 witness: a concrete final-segment type change (directory replaced by
a file) is accepted. -/
theorem c2_witness :
    upsertOkShape
      (some (.tree [("a", "040000", .tree [("b", "100644", .blob "X")])]))
      ["a"] = true ∧
    ∃ u, upsertTree
      (some (.tree [("a", "040000", .tree [("b", "100644", .blob "X")])]))
      ["a"] (.blob "Y") = .ok u :=
  ⟨by decide,
   c2_upsert_total_on_tree_shapes _ _ (Obj.blob "Y") (by decide)⟩

/-! ### Unfolding equations for removeTreeEntry -/

theorem removeTreeEntry_blob (s : String) (c : String) (rest : List String) :
    removeTreeEntry (.blob s) (c :: rest) = ([], .error .objectType) := by
  cases rest <;> rfl

theorem removeTreeEntry_notFound {es : List TreeEntry} {c : String}
    (rest : List String) (hf : findEntry es c = none) :
    removeTreeEntry (.tree es) (c :: rest) = ([], .error (.notFound c)) := by
  cases rest <;> simp only [removeTreeEntry, readTree, hf]

theorem removeTreeEntry_last {es : List TreeEntry} {c : String} {e : TreeEntry}
    (hf : findEntry es c = some e) :
    removeTreeEntry (.tree es) [c] =
      (if eraseFirst c es = [] then ([], .ok none)
       else ([writeTree (eraseFirst c es)],
             .ok (some (writeTree (eraseFirst c es))))) := by
  simp only [removeTreeEntry, readTree, hf]

theorem removeTreeEntry_stepBlob {es : List TreeEntry} {c : String}
    {e : TreeEntry} (r : String) (rs : List String)
    (hf : findEntry es c = some e) (ht : ¬ e.etype = "tree") :
    removeTreeEntry (.tree es) (c :: r :: rs) = ([], .error (.typeMismatch c)) := by
  simp only [removeTreeEntry, readTree, hf]
  rw [if_neg ht]

theorem removeTreeEntry_step {es : List TreeEntry} {c : String}
    {e : TreeEntry} (r : String) (rs : List String)
    (hf : findEntry es c = some e) (ht : e.etype = "tree") :
    removeTreeEntry (.tree es) (c :: r :: rs) =
      (match removeTreeEntry e.oid (r :: rs) with
       | (sublog, .error err) => (sublog, .error err)
       | (sublog, .ok none) =>
         if eraseFirst c es = [] then (sublog, .ok none)
         else (sublog ++ [writeTree (eraseFirst c es)],
               .ok (some (writeTree (eraseFirst c es))))
       | (sublog, .ok (some sub)) =>
         if updateOid c sub es = [] then (sublog, .ok none)
         else (sublog ++ [writeTree (updateOid c sub es)],
               .ok (some (writeTree (updateOid c sub es))))) := by
  simp only [removeTreeEntry, readTree, hf]
  rw [if_pos ht]

theorem removeTreeEntry_step_err {es : List TreeEntry} {c : String}
    {e : TreeEntry} {r : String} {rs : List String} {sublog : List Obj}
    {err : Err} (hf : findEntry es c = some e) (ht : e.etype = "tree")
    (hrec : removeTreeEntry e.oid (r :: rs) = (sublog, .error err)) :
    removeTreeEntry (.tree es) (c :: r :: rs) = (sublog, .error err) := by
  rw [removeTreeEntry_step r rs hf ht, hrec]

theorem removeTreeEntry_step_none {es : List TreeEntry} {c : String}
    {e : TreeEntry} {r : String} {rs : List String} {sublog : List Obj}
    (hf : findEntry es c = some e) (ht : e.etype = "tree")
    (hrec : removeTreeEntry e.oid (r :: rs) = (sublog, .ok none)) :
    removeTreeEntry (.tree es) (c :: r :: rs) =
      (if eraseFirst c es = [] then (sublog, .ok none)
       else (sublog ++ [writeTree (eraseFirst c es)],
             .ok (some (writeTree (eraseFirst c es))))) := by
  rw [removeTreeEntry_step r rs hf ht, hrec]

theorem removeTreeEntry_step_some {es : List TreeEntry} {c : String}
    {e : TreeEntry} {r : String} {rs : List String} {sublog : List Obj}
    {sub : Obj} (hf : findEntry es c = some e) (ht : e.etype = "tree")
    (hrec : removeTreeEntry e.oid (r :: rs) = (sublog, .ok (some sub))) :
    removeTreeEntry (.tree es) (c :: r :: rs) =
      (if updateOid c sub es = [] then (sublog, .ok none)
       else (sublog ++ [writeTree (updateOid c sub es)],
             .ok (some (writeTree (updateOid c sub es))))) := by
  rw [removeTreeEntry_step r rs hf ht, hrec]

theorem sortEntries_ne_nil {l : List TreeEntry} (h : l ≠ []) :
    sortEntries l ≠ [] := by
  intro hs
  apply h
  have := (sortEntries_perm l).length_eq
  rw [hs] at this
  exact List.eq_nil_of_length_eq_zero this.symm

/-- A successful removal never returns an empty tree: the result, when it
is a tree at all, has at least one entry. -/
theorem removeTreeEntry_no_empty_tree (parts : List String) :
    ∀ (t : Obj) (log : List Obj) (u : Obj),
      removeTreeEntry t parts = (log, .ok (some u)) →
      ∃ es, u = .tree es ∧ es ≠ [] := by
  induction parts with
  | nil =>
    intro t log u h
    simp [removeTreeEntry] at h
  | cons c rest ih =>
    intro t log u h
    cases t with
    | blob s =>
      rw [removeTreeEntry_blob] at h
      cases h
    | tree es =>
      cases hf : findEntry es c with
      | none =>
        rw [removeTreeEntry_notFound rest hf] at h
        cases h
      | some e =>
        cases rest with
        | nil =>
          rw [removeTreeEntry_last hf] at h
          by_cases hif : eraseFirst c es = []
          · rw [if_pos hif] at h
            cases h
          · rw [if_neg hif] at h
            obtain ⟨-, h2⟩ := Prod.mk.injEq .. ▸ h
            cases h
            exact ⟨_, rfl, sortEntries_ne_nil hif⟩
        | cons r rs =>
          by_cases ht : e.etype = "tree"
          · rcases hrec : removeTreeEntry e.oid (r :: rs) with ⟨sublog, r'⟩
            cases r' with
            | error err =>
              rw [removeTreeEntry_step_err hf ht hrec] at h
              cases h
            | ok o =>
              cases o with
              | none =>
                rw [removeTreeEntry_step_none hf ht hrec] at h
                by_cases hif : eraseFirst c es = []
                · rw [if_pos hif] at h
                  cases h
                · rw [if_neg hif] at h
                  cases h
                  exact ⟨_, rfl, sortEntries_ne_nil hif⟩
              | some sub =>
                rw [removeTreeEntry_step_some hf ht hrec] at h
                by_cases hif : updateOid c sub es = []
                · rw [if_pos hif] at h
                  cases h
                · rw [if_neg hif] at h
                  cases h
                  exact ⟨_, rfl, sortEntries_ne_nil hif⟩
          · rw [removeTreeEntry_stepBlob r rs hf ht] at h
            cases h

/-- A failing removal has written nothing. -/
theorem removeTreeEntry_error_no_writes (parts : List String) :
    ∀ (t : Obj) (log : List Obj) (err : Err),
      removeTreeEntry t parts = (log, .error err) → log = [] := by
  induction parts with
  | nil =>
    intro t log err h
    simp only [removeTreeEntry] at h
    cases h
    rfl
  | cons c rest ih =>
    intro t log err h
    cases t with
    | blob s =>
      rw [removeTreeEntry_blob] at h
      cases h
      rfl
    | tree es =>
      cases hf : findEntry es c with
      | none =>
        rw [removeTreeEntry_notFound rest hf] at h
        cases h
        rfl
      | some e =>
        cases rest with
        | nil =>
          rw [removeTreeEntry_last hf] at h
          by_cases hif : eraseFirst c es = []
          · rw [if_pos hif] at h
            cases h
          · rw [if_neg hif] at h
            cases h
        | cons r rs =>
          by_cases ht : e.etype = "tree"
          · rcases hrec : removeTreeEntry e.oid (r :: rs) with ⟨sublog, r'⟩
            cases r' with
            | error e' =>
              rw [removeTreeEntry_step_err hf ht hrec] at h
              cases h
              exact ih e.oid _ _ hrec
            | ok o =>
              cases o with
              | none =>
                rw [removeTreeEntry_step_none hf ht hrec] at h
                by_cases hif : eraseFirst c es = []
                · rw [if_pos hif] at h
                  cases h
                · rw [if_neg hif] at h
                  cases h
              | some sub =>
                rw [removeTreeEntry_step_some hf ht hrec] at h
                by_cases hif : updateOid c sub es = []
                · rw [if_pos hif] at h
                  cases h
                · rw [if_neg hif] at h
                  cases h
          · rw [removeTreeEntry_stepBlob r rs hf ht] at h
            cases h
            rfl

theorem removeFileRoot_of_error {root : Obj} {parts : List String}
    {log : List Obj} {err : Err}
    (h : removeTreeEntry root parts = (log, .error err)) :
    removeFileRoot root parts = (log, .error err) := by
  simp only [removeFileRoot, h]

theorem removeFileFlow_of_error {refs : RefMap} {refName parentSha : String}
    {root : Obj} {parts : List String} {newSha : String} {log : List Obj}
    {err : Err} (h : removeTreeEntry root parts = (log, .error err)) :
    removeFileFlow refs refName parentSha root parts newSha =
      ⟨log, none, refs, .error err⟩ := by
  simp only [removeFileFlow, removeFileRoot_of_error h]

/-! ## Claim C5 -/

/-- C5: during remove, a tree whose entry list becomes empty is never
written: a successful removal result is always a non-empty tree; a caller
frame whose child signalled empty deletes its own entry for that child
(the child's name is gone from the written parent) rather than updating
its hash; and only at the root does the `none` marker become the explicit
canonical empty tree. -/
theorem c5_prune_empty_dirs :
    (∀ (t : Obj) (parts : List String) (log : List Obj) (u : Obj),
        removeTreeEntry t parts = (log, .ok (some u)) →
        ∃ es, u = .tree es ∧ es ≠ []) ∧
    (∀ (es : List TreeEntry) (c r : String) (rs : List String)
        (e : TreeEntry) (sublog : List Obj),
        findEntry es c = some e → e.etype = "tree" →
        removeTreeEntry e.oid (r :: rs) = (sublog, .ok none) →
        removeTreeEntry (.tree es) (c :: r :: rs) =
          (if eraseFirst c es = [] then (sublog, .ok none)
           else (sublog ++ [writeTree (eraseFirst c es)],
                 .ok (some (writeTree (eraseFirst c es))))) ∧
        ((es.map TreeEntry.path).Nodup →
          findEntry (writeTree (eraseFirst c es)).entriesOf c = none)) ∧
    (∀ (root : Obj) (parts : List String) (log : List Obj),
        removeTreeEntry root parts = (log, .ok none) →
        (removeFileRoot root parts).2 = .ok (.tree [])) := by
  refine ⟨fun t parts log u h => removeTreeEntry_no_empty_tree parts t log u h,
    fun es c r rs e sublog hf ht hrec => ⟨removeTreeEntry_step_none hf ht hrec, ?_⟩,
    fun root parts log h => ?_⟩
  · intro hn
    have hnf : ((es.filter (fun e => e.path ≠ c)).map TreeEntry.path).Nodup :=
      hn.sublist ((List.filter_sublist es).map TreeEntry.path)
    rw [eraseFirst_eq_filter hn]
    show findEntry (sortEntries _) c = none
    rw [findEntry_sortEntries hnf]
    exact findEntry_filter_self
  · simp only [removeFileRoot, h]
    rfl

/-- C5 witness: removing the only file of a subdirectory prunes the
directory's entry from its parent, and emptying the whole root yields the
canonical empty tree. -/
theorem c5_witness :
    (∃ es, Obj.tree [("c", "100644", Obj.blob "Y")] = .tree es ∧ es ≠ []) ∧
    (removeFileRoot (.tree [("a", "100644", .blob "X")]) ["a"]).2 =
      .ok (.tree []) :=
  ⟨c5_prune_empty_dirs.1
      (.tree [("a", "040000", .tree [("b", "100644", .blob "X")]),
              ("c", "100644", .blob "Y")])
      ["a", "b"] [.tree [("c", "100644", .blob "Y")]]
      (.tree [("c", "100644", .blob "Y")]) (by decide),
   c5_prune_empty_dirs.2.2 (.tree [("a", "100644", .blob "X")]) ["a"] []
      (by decide)⟩

/-! ## Claim C6 -/

/-- C6: remove fails with NotFound when the current segment is absent at
its level and with TypeMismatch when a non-terminal segment's entry is not
a directory; every failing removal has written no tree objects, written no
commit, and left the ref store exactly as it was. -/
theorem c6_remove_errors_all_or_nothing :
    (∀ (es : List TreeEntry) (c : String) (rest : List String),
        findEntry es c = none →
        removeTreeEntry (.tree es) (c :: rest) = ([], .error (.notFound c))) ∧
    (∀ (es : List TreeEntry) (c r : String) (rs : List String) (e : TreeEntry),
        findEntry es c = some e → ¬ e.etype = "tree" →
        removeTreeEntry (.tree es) (c :: r :: rs) =
          ([], .error (.typeMismatch c))) ∧
    (∀ (t : Obj) (parts : List String) (log : List Obj) (err : Err),
        removeTreeEntry t parts = (log, .error err) → log = []) ∧
    (∀ (refs : RefMap) (refName parentSha : String) (root : Obj)
        (parts : List String) (newSha : String) (log : List Obj) (err : Err),
        removeTreeEntry root parts = (log, .error err) →
        removeFileFlow refs refName parentSha root parts newSha =
          ⟨[], none, refs, .error err⟩) := by
  refine ⟨fun es c rest hf => removeTreeEntry_notFound rest hf,
    fun es c r rs e hf ht => removeTreeEntry_stepBlob r rs hf ht,
    fun t parts log err h => removeTreeEntry_error_no_writes parts t log err h,
    fun refs refName parentSha root parts newSha log err h => ?_⟩
  have hlog : log = [] := removeTreeEntry_error_no_writes parts root log err h
  subst hlog
  exact removeFileFlow_of_error h

/-- C6 witness: a missing segment and a traversal through a file, each
failing with the right error and leaving everything unwritten. -/
theorem c6_witness :
    removeTreeEntry (.tree [("a", "100644", .blob "X")]) ["b"] =
      ([], .error (.notFound "b")) ∧
    removeTreeEntry (.tree [("a", "100644", .blob "X")]) ["a", "b"] =
      ([], .error (.typeMismatch "a")) ∧
    removeFileFlow (fun _ => some "H1") "main" "H1"
      (.tree [("a", "100644", .blob "X")]) ["b"] "C1" =
      ⟨[], none, fun _ => some "H1", .error (.notFound "b")⟩ :=
  ⟨c6_remove_errors_all_or_nothing.1 [("a", "100644", .blob "X")] "b" []
      (by decide),
   c6_remove_errors_all_or_nothing.2.1 [("a", "100644", .blob "X")] "a" "b" []
      ("a", "100644", .blob "X") (by decide) (by decide),
   c6_remove_errors_all_or_nothing.2.2.2 (fun _ => some "H1") "main" "H1"
      (.tree [("a", "100644", .blob "X")]) ["b"] "C1" [] (.notFound "b")
      (by decide)⟩

/-! ## Claim C1 -/

/-- C1 counterexample: the merge flow does NOT perform the compare-and-swap.
With the destination ref currently at "H2" while the merge observed "H1"
at its start, the claim demands a Stale failure with the ref unchanged;
the code (merge-branch.js line 134) force-writes the ref to the new merge
commit and succeeds. -/
theorem c1_counterexample :
    (fun n => if n = "dest" then some "H2" else none : RefMap) "dest" =
      some "H2" ∧
    ("H2" : String) ≠ "H1" ∧
    (mergeFlow 1 [] none none none
      (fun n => if n = "dest" then some "H2" else none) "dest" "H1" "S1"
      "C1").outcome = .ok "C1" ∧
    (mergeFlow 1 [] none none none
      (fun n => if n = "dest" then some "H2" else none) "dest" "H1" "S1"
      "C1").refs "dest" = some "C1" := by
  refine ⟨by decide, by decide, by decide, by decide⟩

/-- C1 (amended): the upsert and remove publish flows re-read the ref at
update time and move it only when its current value equals the parent
observed at the start, failing Stale (or NotFound, for remove, when the
ref has vanished) with the ref unchanged otherwise; the merge flow
performs no such check and force-writes the destination ref
unconditionally. -/
theorem c1_cas_upsert_remove_not_merge :
    (∀ (refs : RefMap) (name : String) (parentSha : Option String) (c : String),
        (refs name = parentSha →
          addFileRefUpdate refs name parentSha c =
            (RefMap.set refs name c, .ok ())) ∧
        (refs name ≠ parentSha →
          addFileRefUpdate refs name parentSha c = (refs, .error .stale))) ∧
    (∀ (refs : RefMap) (name parentSha c : String),
        (refs name = some parentSha →
          removeFileRefUpdate refs name parentSha c =
            (RefMap.set refs name c, .ok ())) ∧
        (∀ cur, refs name = some cur → cur ≠ parentSha →
          removeFileRefUpdate refs name parentSha c = (refs, .error .stale)) ∧
        (refs name = none →
          removeFileRefUpdate refs name parentSha c =
            (refs, .error (.notFound name)))) ∧
    (∀ (refs : RefMap) (dest c : String),
        mergeRefUpdate refs dest c = (RefMap.set refs dest c, .ok ())) := by
  refine ⟨fun refs name parentSha c => ⟨fun h => ?_, fun h => ?_⟩,
    fun refs name parentSha c => ⟨fun h => ?_, fun cur hcur hne => ?_, fun h => ?_⟩,
    fun refs dest c => rfl⟩
  · simp [addFileRefUpdate, h]
  · simp only [addFileRefUpdate, if_neg h]
  · simp [removeFileRefUpdate, h]
  · simp only [removeFileRefUpdate, hcur, if_neg hne]
  · simp only [removeFileRefUpdate, h]

/-- C1 witness: concrete CAS success, CAS failure and unconditional merge
write. -/
theorem c1_witness :
    addFileRefUpdate (fun _ => some "H1") "main" (some "H1") "C1" =
      (RefMap.set (fun _ => some "H1") "main" "C1", .ok ()) ∧
    addFileRefUpdate (fun _ => some "H2") "main" (some "H1") "C1" =
      ((fun _ => some "H2"), .error .stale) ∧
    removeFileRefUpdate (fun _ => some "H2") "main" "H1" "C1" =
      ((fun _ => some "H2"), .error .stale) ∧
    mergeRefUpdate (fun _ => some "H2") "dest" "C1" =
      (RefMap.set (fun _ => some "H2") "dest" "C1", .ok ()) :=
  ⟨(c1_cas_upsert_remove_not_merge.1 (fun _ => some "H1") "main" (some "H1")
      "C1").1 rfl,
   (c1_cas_upsert_remove_not_merge.1 (fun _ => some "H2") "main" (some "H1")
      "C1").2 (by simp),
   (c1_cas_upsert_remove_not_merge.2.1 (fun _ => some "H2") "main" "H1"
      "C1").2.1 "H2" rfl (by decide),
   c1_cas_upsert_remove_not_merge.2.2 (fun _ => some "H2") "dest" "C1"⟩

/-! ## Claim C3 -/

/-- On an unresolved merge conflict, the name the error carries had no
usable resolution: the resolutions object has no binding for that (bare)
name, or only an empty-string binding (falsy in JS, hence ignored). -/
theorem mergeLoop_conflict_no_resolution
    (mt : Option Obj → Option Obj → Option Obj →
      List Obj × Except Err (Option Obj))
    (res : List (String × String)) (bes oes tes : List TreeEntry)
    (p : String)
    (hmt : ∀ b o t log, mt b o t = (log, .error (.mergeConflict p)) →
      lookupRes res p = none ∨ lookupRes res p = some "") :
    ∀ (names : List String) (log : List Obj),
      mergeLoop mt res bes oes tes names = (log, .error (.mergeConflict p)) →
      lookupRes res p = none ∨ lookupRes res p = some "" := by
  intro names
  induction names with
  | nil =>
    intro log h
    simp [mergeLoop] at h
  | cons q ps ih =>
    intro log h
    simp only [mergeLoop] at h
    split at h
    · -- directory recursion
      rcases hmtq : mt (Option.map TreeEntry.oid (findEntry bes q))
          (Option.map TreeEntry.oid (findEntry oes q))
          (Option.map TreeEntry.oid (findEntry tes q)) with ⟨sublog, r'⟩
      rw [hmtq] at h
      cases r' with
      | error e =>
        cases h
        exact hmt _ _ _ _ hmtq
      | ok o =>
        cases o with
        | none =>
          rcases hl : mergeLoop mt res bes oes tes ps with ⟨l, r⟩
          rw [hl] at h
          cases r with
          | error e =>
            cases h
            exact ih _ hl
          | ok es => cases h
        | some m =>
          rcases hl : mergeLoop mt res bes oes tes ps with ⟨l, r⟩
          rw [hl] at h
          cases r with
          | error e =>
            cases h
            exact ih _ hl
          | ok es => cases h
    · -- blob rules
      split at h
      · rcases hl : mergeLoop mt res bes oes tes ps with ⟨l, r⟩
        rw [hl] at h
        cases r with
        | error e =>
          cases h
          exact ih _ hl
        | ok es => cases h
      · split at h
        · rcases hl : mergeLoop mt res bes oes tes ps with ⟨l, r⟩
          rw [hl] at h
          cases r with
          | error e =>
            cases h
            exact ih _ hl
          | ok es => cases h
        · split at h
          · rcases hl : mergeLoop mt res bes oes tes ps with ⟨l, r⟩
            rw [hl] at h
            cases r with
            | error e =>
              cases h
              exact ih _ hl
            | ok es => cases h
          · -- conflict branch
            split at h
            · rename_i content hres
              split at h
              · rename_i hc
                cases h
                subst hc
                exact Or.inr hres
              · rcases hl : mergeLoop mt res bes oes tes ps with ⟨l, r⟩
                rw [hl] at h
                cases r with
                | error e =>
                  cases h
                  exact ih _ hl
                | ok es => cases h
            · rename_i hres
              cases h
              exact Or.inl hres

theorem readEntriesOpt_error {x : Option Obj} {e : Err}
    (h : readEntriesOpt x = .error e) : e = .objectType := by
  cases x with
  | none => cases h
  | some t =>
    cases t with
    | blob s =>
      simp only [readEntriesOpt, readTree] at h
      cases h
      rfl
    | tree es => cases h

theorem mergeTrees_conflict_no_resolution (fuel : Nat)
    (res : List (String × String)) :
    ∀ (b o t : Option Obj) (log : List Obj) (p : String),
      mergeTrees fuel res b o t = (log, .error (.mergeConflict p)) →
      lookupRes res p = none ∨ lookupRes res p = some "" := by
  induction fuel with
  | zero =>
    intro b o t log p h
    simp [mergeTrees] at h
  | succ fuel ih =>
    intro b o t log p h
    simp only [mergeTrees, mergeStep] at h
    split at h
    · rename_i e hb
      cases h
      simpa using readEntriesOpt_error hb
    · rename_i bes hb
      split at h
      · rename_i e ho
        cases h
        simpa using readEntriesOpt_error ho
      · rename_i oes ho
        split at h
        · rename_i e ht
          cases h
          simpa using readEntriesOpt_error ht
        · rename_i tes ht
          split at h
          · rename_i log' e hl
            cases h
            exact mergeLoop_conflict_no_resolution (mergeTrees fuel res) res
              bes oes tes p (fun b' o' t' log'' hsub => ih b' o' t' log'' p hsub)
              _ _ hl
          · cases h
          · cases h

/-- C3 counterexample: for a conflict at the nested path y/h the merge
fails with MergeConflict naming only the bare entry name "h", not the path
"y/h"; and a freshly merged sibling sub-tree object (for directory d) has
already been written to the object store before the failure, so the merge
is not write-free. -/
theorem c3_counterexample :
    mergeTrees 10 []
      (some (.tree [("d", "040000",
          .tree [("f", "100644", .blob "A"), ("g", "100644", .blob "P")]),
        ("y", "040000", .tree [("h", "100644", .blob "A")])]))
      (some (.tree [("d", "040000",
          .tree [("f", "100644", .blob "B"), ("g", "100644", .blob "P")]),
        ("y", "040000", .tree [("h", "100644", .blob "B")])]))
      (some (.tree [("d", "040000",
          .tree [("f", "100644", .blob "A"), ("g", "100644", .blob "Q")]),
        ("y", "040000", .tree [("h", "100644", .blob "C")])])) =
      ([.tree [("f", "100644", .blob "B"), ("g", "100644", .blob "Q")]],
       .error (.mergeConflict "h")) ∧
    ("h" : String) ≠ "y/h" := by
  refine ⟨by decide, by decide⟩

/-- C3 (amended): when the merge reaches a conflicting name with no usable
resolution (no binding for that bare entry name, or an empty-string one),
the entire merge fails with MergeConflict carrying the entry's name (the
final path segment only); no merged root tree results, no commit is
written and the destination ref is left unchanged — but sub-trees and
resolution blobs already merged before the conflict remain written in the
object store as unreachable orphans. -/
theorem c3_conflict_aborts_publish (fuel : Nat)
    (res : List (String × String)) (b o t : Option Obj) (refs : RefMap)
    (destRef destSha sourceSha newSha : String) (log : List Obj) (p : String)
    (h : mergeTrees fuel res b o t = (log, .error (.mergeConflict p))) :
    mergeFlow fuel res b o t refs destRef destSha sourceSha newSha =
      ⟨log, none, refs, .error (.mergeConflict p)⟩ ∧
    (lookupRes res p = none ∨ lookupRes res p = some "") :=
  ⟨by simp only [mergeFlow, h],
   mergeTrees_conflict_no_resolution fuel res b o t log p h⟩

/-- C3 witness: the nested-conflict scenario aborts the publish with no
commit and the ref store untouched. -/
theorem c3_witness :
    mergeFlow 10 []
      (some (.tree [("d", "040000",
          .tree [("f", "100644", .blob "A"), ("g", "100644", .blob "P")]),
        ("y", "040000", .tree [("h", "100644", .blob "A")])]))
      (some (.tree [("d", "040000",
          .tree [("f", "100644", .blob "B"), ("g", "100644", .blob "P")]),
        ("y", "040000", .tree [("h", "100644", .blob "B")])]))
      (some (.tree [("d", "040000",
          .tree [("f", "100644", .blob "A"), ("g", "100644", .blob "Q")]),
        ("y", "040000", .tree [("h", "100644", .blob "C")])]))
      (fun _ => some "D1") "dest" "D1" "S1" "M1" =
      ⟨[.tree [("f", "100644", .blob "B"), ("g", "100644", .blob "Q")]],
       none, fun _ => some "D1", .error (.mergeConflict "h")⟩ ∧
    (lookupRes [] "h" = none ∨ lookupRes [] "h" = some "") :=
  c3_conflict_aborts_publish 10 [] _ _ _ (fun _ => some "D1") "dest" "D1"
    "S1" "M1" _ "h" (by decide)

/-! ## Claim C4: per-name characterisation of the merge -/

theorem mem_dedupAux : ∀ (l : List String) (seen : List String) (p : String),
    p ∈ dedupAux seen l ↔ p ∈ l ∧ p ∉ seen := by
  intro l
  induction l with
  | nil => simp [dedupAux]
  | cons x xs ih =>
    intro seen p
    simp only [dedupAux]
    split
    · rename_i hx
      rw [ih]
      constructor
      · rintro ⟨h1, h2⟩
        exact ⟨List.mem_cons_of_mem x h1, h2⟩
      · rintro ⟨h1, h2⟩
        rcases List.mem_cons.mp h1 with h1 | h1
        · exact absurd (h1 ▸ hx) h2
        · exact ⟨h1, h2⟩
    · rename_i hx
      simp only [List.mem_cons, ih]
      constructor
      · rintro (h | ⟨h1, h2⟩)
        · subst h
          exact ⟨Or.inl rfl, hx⟩
        · exact ⟨Or.inr h1, fun hc => h2 (Or.inr hc)⟩
      · rintro ⟨h1 | h1, h2⟩
        · exact Or.inl h1
        · by_cases hpx : p = x
          · exact Or.inl hpx
          · refine Or.inr ⟨h1, fun hc => ?_⟩
            rcases hc with hc | hc
            · exact hpx hc
            · exact h2 hc

theorem mem_dedup {l : List String} {p : String} : p ∈ dedup l ↔ p ∈ l := by
  unfold dedup
  rw [mem_dedupAux]
  simp

theorem nodup_dedupAux : ∀ (l : List String) (seen : List String),
    (dedupAux seen l).Nodup := by
  intro l
  induction l with
  | nil => simp [dedupAux]
  | cons x xs ih =>
    intro seen
    simp only [dedupAux]
    split
    · exact ih seen
    · refine List.nodup_cons.mpr ⟨fun hc => ?_, ih (x :: seen)⟩
      exact ((mem_dedupAux xs (x :: seen) x).mp hc).2 (by simp)

theorem nodup_dedup (l : List String) : (dedup l).Nodup := nodup_dedupAux l []

/-- What the merge loop contributes for one name (merge-branch.js lines
41–91), as a function of the recursive call `mt`: an error aborting the
merge, `none` (nothing kept at this name), or the entry that is kept. -/
def mergePush (mt : Option Obj → Option Obj → Option Obj →
      List Obj × Except Err (Option Obj))
    (res : List (String × String)) (bes oes tes : List TreeEntry)
    (p : String) : Except Err (Option TreeEntry) :=
  let base := findEntry bes p
  let ours := findEntry oes p
  let theirs := findEntry tes p
  let baseSha := base.map TreeEntry.oid
  let ourSha := ours.map TreeEntry.oid
  let theirSha := theirs.map TreeEntry.oid
  let isDir := (ours.any (fun e => e.etype = "tree")) ||
               (theirs.any (fun e => e.etype = "tree"))
  if isDir then
    match (mt baseSha ourSha theirSha).2 with
    | .error e => .error e
    | .ok none => .ok none
    | .ok (some m) => .ok (some (p, "040000", m))
  else
    if ourSha = theirSha then .ok ours
    else if ourSha = baseSha ∧ theirSha ≠ baseSha then .ok theirs
    else if ourSha ≠ baseSha ∧ theirSha = baseSha then .ok ours
    else
      match lookupRes res p with
      | some content =>
        if content = "" then .error (.mergeConflict p)
        else .ok (some (p, "100644", Obj.blob content))
      | none => .error (.mergeConflict p)

/-- Every entry a successful merge loop emits is named by one of the
processed names, and the emitted entry for name `p` is what `mergePush`
says; names not pushed are absent. -/
theorem mergeLoop_find
    (mt : Option Obj → Option Obj → Option Obj →
      List Obj × Except Err (Option Obj))
    (res : List (String × String)) (bes oes tes : List TreeEntry) :
    ∀ (names : List String) (log : List Obj) (es : List TreeEntry),
      mergeLoop mt res bes oes tes names = (log, .ok es) →
      names.Nodup →
      (∀ p ∈ names, ∃ v, mergePush mt res bes oes tes p = .ok v ∧
        findEntry es p = v) ∧
      (∀ p, p ∉ names → findEntry es p = none) := by
  intro names
  induction names with
  | nil =>
    intro log es h _
    simp only [mergeLoop] at h
    cases h
    exact ⟨fun p hp => absurd hp (List.not_mem_nil p), fun p _ => rfl⟩
  | cons q ps ih =>
    intro log es h hnd
    have hnd' := List.nodup_cons.mp hnd
    simp only [mergeLoop] at h
    split at h
    · -- directory recursion at q
      rename_i hisdir
      rcases hmtq : mt (Option.map TreeEntry.oid (findEntry bes q))
          (Option.map TreeEntry.oid (findEntry oes q))
          (Option.map TreeEntry.oid (findEntry tes q)) with ⟨sublog, r'⟩
      rw [hmtq] at h
      cases r' with
      | error e =>
        cases h
      | ok o =>
        cases o with
        | none =>
          rcases hl : mergeLoop mt res bes oes tes ps with ⟨l, r⟩
          rw [hl] at h
          cases r with
          | error e => cases h
          | ok es' =>
            cases h
            obtain ⟨h1, h2⟩ := ih _ _ hl hnd'.2
            refine ⟨fun p hp => ?_, fun p hp => ?_⟩
            · rcases List.mem_cons.mp hp with hp | hp
              · subst hp
                refine ⟨none, ?_, h2 p hnd'.1⟩
                simp only [mergePush, if_pos hisdir, hmtq]
              · exact h1 p hp
            · exact h2 p (fun hc => hp (List.mem_cons_of_mem q hc))
        | some m =>
          rcases hl : mergeLoop mt res bes oes tes ps with ⟨l, r⟩
          rw [hl] at h
          cases r with
          | error e => cases h
          | ok es' =>
            cases h
            obtain ⟨h1, h2⟩ := ih _ _ hl hnd'.2
            refine ⟨fun p hp => ?_, fun p hp => ?_⟩
            · rcases List.mem_cons.mp hp with hp | hp
              · subst hp
                refine ⟨some (p, "040000", m), ?_, ?_⟩
                · simp only [mergePush, if_pos hisdir, hmtq]
                · simp [findEntry, List.find?, TreeEntry.path]
              · obtain ⟨v, hv1, hv2⟩ := h1 p hp
                refine ⟨v, hv1, ?_⟩
                rw [← hv2]
                unfold findEntry
                simp only [List.find?]
                have : ¬ (q = p) := fun hc => hnd'.1 (hc ▸ hp)
                rw [decide_eq_false (by simpa [TreeEntry.path] using this)]
            · have hq : ¬ (q = p) := fun hc => hp (hc ▸ List.mem_cons_self q ps)
              rw [show findEntry ((q, "040000", m) :: es') p = findEntry es' p by
                unfold findEntry
                simp only [List.find?]
                rw [decide_eq_false (by simpa [TreeEntry.path] using hq)]]
              exact h2 p (fun hc => hp (List.mem_cons_of_mem q hc))
    · -- blob rules at q
      rename_i hisdir
      have main : ∀ (pushed : Option TreeEntry),
          (∀ e', pushed = some e' → e'.path = q) →
          mergePush mt res bes oes tes q = .ok pushed →
          Except.map (fun es0 => pushed.toList ++ es0)
            (mergeLoop mt res bes oes tes ps).2 = .ok es →
          (∀ p ∈ q :: ps, ∃ v, mergePush mt res bes oes tes p = .ok v ∧
            findEntry es p = v) ∧
          (∀ p, p ∉ q :: ps → findEntry es p = none) := by
        intro pushed hname hpush hh
        rcases hl : mergeLoop mt res bes oes tes ps with ⟨l, r⟩
        rw [hl] at hh
        cases r with
        | error e => cases hh
        | ok es' =>
          cases hh
          obtain ⟨h1, h2⟩ := ih _ _ hl hnd'.2
          refine ⟨fun p hp => ?_, fun p hp => ?_⟩
          · rcases List.mem_cons.mp hp with hp | hp
            · subst hp
              refine ⟨pushed, hpush, ?_⟩
              cases pushed with
              | none => exact h2 p hnd'.1
              | some e' =>
                have := hname e' rfl
                unfold findEntry
                simp only [Option.toList, List.cons_append, List.nil_append,
                  List.find?]
                rw [decide_eq_true (show e'.path = p from this)]
            · obtain ⟨v, hv1, hv2⟩ := h1 p hp
              refine ⟨v, hv1, ?_⟩
              rw [← hv2]
              cases pushed with
              | none => rfl
              | some e' =>
                have hq : e'.path ≠ p := by
                  rw [hname e' rfl]
                  exact fun hc => hnd'.1 (hc ▸ hp)
                unfold findEntry
                simp only [Option.toList, List.cons_append, List.nil_append,
                  List.find?]
                rw [decide_eq_false hq]
                rfl
          · have hqp : ¬ (q = p) :=
              fun hc => hp (hc ▸ List.mem_cons_self q ps)
            have hrest : findEntry es' p = none :=
              h2 p (fun hc => hp (List.mem_cons_of_mem q hc))
            cases pushed with
            | none => exact hrest
            | some e' =>
              have hq : e'.path ≠ p := by
                rw [hname e' rfl]
                exact hqp
              unfold findEntry
              simp only [Option.toList, List.cons_append, List.nil_append,
                List.find?]
              rw [decide_eq_false hq]
              exact hrest
      split at h
      · rename_i hcond
        refine main (findEntry oes q) (fun e' he' => (findEntry_mem he').2) ?_
          (congrArg Prod.snd h)
        simp only [mergePush, if_neg hisdir, if_pos hcond]
      · split at h
        · rename_i hcond1 hcond2
          refine main (findEntry tes q) (fun e' he' => (findEntry_mem he').2)
            ?_ (congrArg Prod.snd h)
          simp only [mergePush, if_neg hisdir]
          rw [if_neg hcond1, if_pos hcond2]
        · split at h
          · rename_i hcond1 hcond2 hcond3
            refine main (findEntry oes q)
              (fun e' he' => (findEntry_mem he').2) ?_ (congrArg Prod.snd h)
            simp only [mergePush, if_neg hisdir]
            rw [if_neg hcond1, if_neg hcond2, if_pos hcond3]
          · rename_i hcond1 hcond2 hcond3
            split at h
            · rename_i content hres
              split at h
              · cases h
              · rename_i hc
                refine main (some (q, "100644", .blob content))
                  (fun e' he' => by cases he'; rfl) ?_ (congrArg Prod.snd h)
                simp only [mergePush, if_neg hisdir]
                rw [if_neg hcond1, if_neg hcond2, if_neg hcond3]
                simp [hres, hc]
            · cases h

/-- One step of a successful merge loop: the result is an optional entry
named like the current name, prepended to the rest of the loop's result. -/
theorem mergeLoop_cons_shape
    (mt : Option Obj → Option Obj → Option Obj →
      List Obj × Except Err (Option Obj))
    (res : List (String × String)) (bes oes tes : List TreeEntry)
    (q : String) (ps : List String) (log : List Obj) (es : List TreeEntry)
    (h : mergeLoop mt res bes oes tes (q :: ps) = (log, .ok es)) :
    ∃ (pushed : Option TreeEntry) (l' : List Obj) (es' : List TreeEntry),
      (∀ e', pushed = some e' → e'.path = q) ∧
      mergeLoop mt res bes oes tes ps = (l', .ok es') ∧
      es = pushed.toList ++ es' := by
  simp only [mergeLoop] at h
  split at h
  · rcases hmtq : mt (Option.map TreeEntry.oid (findEntry bes q))
        (Option.map TreeEntry.oid (findEntry oes q))
        (Option.map TreeEntry.oid (findEntry tes q)) with ⟨sublog, r'⟩
    rw [hmtq] at h
    cases r' with
    | error e => cases h
    | ok o =>
      cases o with
      | none =>
        rcases hl : mergeLoop mt res bes oes tes ps with ⟨l, r⟩
        rw [hl] at h
        cases r with
        | error e => cases h
        | ok es' =>
          cases h
          exact ⟨none, _, _, ⟨fun e' he' => (nomatch he'), rfl, rfl⟩⟩
      | some m =>
        rcases hl : mergeLoop mt res bes oes tes ps with ⟨l, r⟩
        rw [hl] at h
        cases r with
        | error e => cases h
        | ok es' =>
          cases h
          exact ⟨some (q, "040000", m), _, _,
            ⟨fun e' he' => (by cases he'; rfl), rfl, rfl⟩⟩
  · split at h
    · rcases hl : mergeLoop mt res bes oes tes ps with ⟨l, r⟩
      rw [hl] at h
      cases r with
      | error e => cases h
      | ok es' =>
        cases h
        exact ⟨findEntry oes q, _, _,
          ⟨fun e' he' => (findEntry_mem he').2, rfl, rfl⟩⟩
    · split at h
      · rcases hl : mergeLoop mt res bes oes tes ps with ⟨l, r⟩
        rw [hl] at h
        cases r with
        | error e => cases h
        | ok es' =>
          cases h
          exact ⟨findEntry tes q, _, _,
            ⟨fun e' he' => (findEntry_mem he').2, rfl, rfl⟩⟩
      · split at h
        · rcases hl : mergeLoop mt res bes oes tes ps with ⟨l, r⟩
          rw [hl] at h
          cases r with
          | error e => cases h
          | ok es' =>
            cases h
            exact ⟨findEntry oes q, _, _,
              ⟨fun e' he' => (findEntry_mem he').2, rfl, rfl⟩⟩
        · split at h
          · rename_i content hres
            split at h
            · cases h
            · rcases hl : mergeLoop mt res bes oes tes ps with ⟨l, r⟩
              rw [hl] at h
              cases r with
              | error e => cases h
              | ok es' =>
                cases h
                exact ⟨some (q, "100644", .blob content), _, _,
                  ⟨fun e' he' => (by cases he'; rfl), rfl, rfl⟩⟩
          · cases h

/-- A successful merge loop over distinct names emits entries with
distinct names, all among the processed names. -/
theorem mergeLoop_names_nodup
    (mt : Option Obj → Option Obj → Option Obj →
      List Obj × Except Err (Option Obj))
    (res : List (String × String)) (bes oes tes : List TreeEntry) :
    ∀ (names : List String) (log : List Obj) (es : List TreeEntry),
      mergeLoop mt res bes oes tes names = (log, .ok es) → names.Nodup →
      (∀ e ∈ es, e.path ∈ names) ∧ (es.map TreeEntry.path).Nodup := by
  intro names
  induction names with
  | nil =>
    intro log es h _
    simp only [mergeLoop] at h
    cases h
    exact ⟨fun e he => absurd he (List.not_mem_nil e), List.nodup_nil⟩
  | cons q ps ih =>
    intro log es h hnd
    have hnd' := List.nodup_cons.mp hnd
    obtain ⟨pushed, l', es', hname, hl, hshape⟩ :=
      mergeLoop_cons_shape mt res bes oes tes q ps log es h
    obtain ⟨hmem, hnodup⟩ := ih l' es' hl hnd'.2
    subst hshape
    cases pushed with
    | none =>
      exact ⟨fun e he => List.mem_cons_of_mem q (hmem e he),
        by simpa using hnodup⟩
    | some e' =>
      have hq := hname e' rfl
      constructor
      · intro e he
        rcases List.mem_cons.mp (by simpa using he) with he | he
        · subst he
          exact hq ▸ List.mem_cons_self _ _
        · exact List.mem_cons_of_mem q (hmem e he)
      · simp only [Option.toList, List.cons_append, List.nil_append,
          List.map_cons, List.nodup_cons]
        refine ⟨fun hc => ?_, hnodup⟩
        obtain ⟨e2, he2, hpe2⟩ := List.mem_map.mp hc
        have := hmem e2 he2
        rw [hpe2, hq] at this
        exact hnd'.1 this

/-- C4 counterexample: (1) for a conflict at nested path d/f a resolution
keyed by the full path "d/f" is NOT used — the code looks resolutions up
by the bare entry name, so the merge still fails; (2) when ours has a
directory at a name where base has a blob, the recursion does not proceed
treating the blob side as a subtree: reading the blob hash as a tree
fails the whole merge with an object-type error. -/
theorem c4_counterexample :
    (mergeTrees 10 [("d/f", "X")]
      (some (.tree [("d", "040000", .tree [("f", "100644", .blob "A")])]))
      (some (.tree [("d", "040000", .tree [("f", "100644", .blob "B")])]))
      (some (.tree [("d", "040000", .tree [("f", "100644", .blob "C")])]))).2 =
      .error (.mergeConflict "f") ∧
    (mergeTrees 10 []
      (some (.tree [("p", "100644", .blob "A")]))
      (some (.tree [("p", "040000", .tree [("q", "100644", .blob "B")])]))
      none).2 = .error .objectType := by
  refine ⟨by decide, by decide⟩

/-- C4 (amended): for every name in the union of the base/ours/theirs
entry sets, a successful merge's entry at that name is exactly what the
per-name rule of the code computes (`mergePush`): recurse when ours or
theirs has the name as a directory (failing if a side's hash is not a
tree) and omit an empty result; otherwise keep ours when the two sides'
hashes agree, take the changed side against base, and for a conflict use
a fresh regular blob from the resolution looked up by the BARE entry name
(an empty-string resolution counting as absent). -/
theorem c4_merge_per_name_rule (fuel : Nat) (res : List (String × String))
    (b o t : Option Obj) (bes oes tes : List TreeEntry) (log : List Obj)
    (m : Obj) (hb : readEntriesOpt b = .ok bes)
    (ho : readEntriesOpt o = .ok oes) (ht : readEntriesOpt t = .ok tes)
    (hm : mergeTrees (fuel + 1) res b o t = (log, .ok (some m))) :
    ∀ p ∈ dedup (bes.map TreeEntry.path ++ oes.map TreeEntry.path ++
        tes.map TreeEntry.path),
      ∃ v, mergePush (mergeTrees fuel res) res bes oes tes p = .ok v ∧
        findEntry m.entriesOf p = v := by
  intro p hp
  simp only [mergeTrees, mergeStep, hb, ho, ht] at hm
  rcases hl : mergeLoop (mergeTrees fuel res) res bes oes tes
      (dedup (bes.map TreeEntry.path ++ oes.map TreeEntry.path ++
        tes.map TreeEntry.path)) with ⟨l, r⟩
  rw [hl] at hm
  cases r with
  | error e => cases hm
  | ok es =>
    cases es with
    | nil => cases hm
    | cons x xs =>
      cases hm
      have hnd := nodup_dedup (bes.map TreeEntry.path ++
        oes.map TreeEntry.path ++ tes.map TreeEntry.path)
      obtain ⟨h1, -⟩ := mergeLoop_find (mergeTrees fuel res) res bes oes tes
        _ _ _ hl hnd
      obtain ⟨v, hv1, hv2⟩ := h1 p hp
      refine ⟨v, hv1, ?_⟩
      have hnodup := (mergeLoop_names_nodup (mergeTrees fuel res) res bes
        oes tes _ _ _ hl hnd).2
      show findEntry (sortEntries (x :: xs)) p = v
      rw [findEntry_sortEntries hnodup]
      exact hv2

/-- C4 witness: a one-file merge where ours changed and theirs did not —
the rule keeps ours' entry. -/
theorem c4_witness :
    ∃ v, mergePush (mergeTrees 9 []) [] [("f", "100644", .blob "A")]
        [("f", "100644", .blob "B")] [("f", "100644", .blob "A")] "f" =
        .ok v ∧
      findEntry (Obj.tree [("f", "100644", .blob "B")]).entriesOf "f" = v :=
  c4_merge_per_name_rule 9 []
    (some (.tree [("f", "100644", .blob "A")]))
    (some (.tree [("f", "100644", .blob "B")]))
    (some (.tree [("f", "100644", .blob "A")]))
    [("f", "100644", .blob "A")] [("f", "100644", .blob "B")]
    [("f", "100644", .blob "A")]
    [.tree [("f", "100644", .blob "B")]] (.tree [("f", "100644", .blob "B")])
    (by decide) (by decide) (by decide) (by decide) "f" (by decide)

/-! ## Claim C10 -/

/-- C10: every blob entry CREATED by the write operations carries regular
mode 100644: the leaf inserted by upsert (even when it replaces an
executable-mode entry — the old entry is filtered out and a fresh 100644
entry inserted) and the blob written for a resolved merge conflict. -/
theorem c10_created_blobs_regular_mode :
    (∀ (parts : List String) (t? : Option Obj) (X t' : Obj),
        wfOpt t? = true → upsertTree t? parts X = .ok t' →
        resolveBlobEntry t' parts = .ok ("100644", "blob", X)) ∧
    (∀ (mt : Option Obj → Option Obj → Option Obj →
          List Obj × Except Err (Option Obj))
        (res : List (String × String)) (bes oes tes : List TreeEntry)
        (p content : String),
        ((findEntry oes p).any (fun e => e.etype = "tree") ||
          (findEntry tes p).any (fun e => e.etype = "tree")) = false →
        ¬ ((findEntry oes p).map TreeEntry.oid =
            (findEntry tes p).map TreeEntry.oid) →
        ¬ ((findEntry oes p).map TreeEntry.oid =
              (findEntry bes p).map TreeEntry.oid ∧
            (findEntry tes p).map TreeEntry.oid ≠
              (findEntry bes p).map TreeEntry.oid) →
        ¬ ((findEntry oes p).map TreeEntry.oid ≠
              (findEntry bes p).map TreeEntry.oid ∧
            (findEntry tes p).map TreeEntry.oid =
              (findEntry bes p).map TreeEntry.oid) →
        lookupRes res p = some content → content ≠ "" →
        mergePush mt res bes oes tes p =
          .ok (some (p, "100644", .blob content))) := by
  refine ⟨fun parts t? X t' hwf h => upsert_resolve parts t? X t' hwf h,
    fun mt res bes oes tes p content hdir h1 h2 h3 hres hc => ?_⟩
  simp only [mergePush]
  rw [if_neg (by simp [hdir]), if_neg h1, if_neg h2, if_neg h3]
  simp [hres, hc]

/-- C10 witness: upserting over an executable-mode entry yields a regular
100644 entry, and a resolved conflict produces a fresh 100644 blob. -/
theorem c10_witness :
    resolveBlobEntry (.tree [("x", "100644", .blob "new")]) ["x"] =
      .ok ("100644", "blob", .blob "new") ∧
    mergePush (mergeTrees 1 []) [("f", "R")] []
      [("f", "100644", .blob "A")] [("f", "100644", .blob "B")] "f" =
      .ok (some ("f", "100644", .blob "R")) := by
  constructor
  · have h := c10_created_blobs_regular_mode.1 ["x"]
      (some (.tree [("x", "100755", .blob "old")])) (.blob "new")
      (.tree [("x", "100644", .blob "new")]) (by decide) (by decide)
    exact h
  · exact c10_created_blobs_regular_mode.2 (mergeTrees 1 []) [("f", "R")]
      [] [("f", "100644", .blob "A")] [("f", "100644", .blob "B")] "f" "R"
      (by decide) (by decide) (by decide) (by decide) (by decide) (by decide)

/-! ## Claim C7: fast-forward and no-op merges -/

/-- Root is a tree or absent (a commit's tree always is). -/
def treeOpt : Option Obj → Bool
  | none => true
  | some (.tree _) => true
  | some (.blob _) => false

/-- Canonical form for an optional root. -/
def canonOpt : Option Obj → Bool
  | none => true
  | some t => canonObj t

mutual

/-- Compatibility of two trees for exact fast-forward/no-op merges: no
file-vs-directory kind mismatch at a shared name, and same-content blobs
at a shared name carry the same mode. -/
def ffCompatObj : Obj → Obj → Bool
  | .blob _, .blob _ => true
  | .tree bs, .tree ts => ffCompatList bs ts
  | _, _ => false

def ffCompatList : List (String × String × Obj) → List TreeEntry → Bool
  | [], _ => true
  | (n, m, o) :: bs, tes =>
    (match findEntry tes n with
     | none => true
     | some te =>
       match o, te.oid with
       | .blob c, .blob c' => decide (c ≠ c') || decide (m = te.mode)
       | .tree _, .tree _ => ffCompatObj o te.oid
       | _, _ => false) && ffCompatList bs tes

end

def ffCompatOpt : Option Obj → Option Obj → Bool
  | some b, some t => ffCompatObj b t
  | _, _ => true

theorem canon_entry_tree {es : List TreeEntry} {e : TreeEntry}
    (hc : canonEntries es = true) (hm : e ∈ es) (ht : e.mode = "040000") :
    ∃ subs, e.oid = .tree subs ∧ subs ≠ [] ∧ canonObj e.oid = true := by
  obtain ⟨hkind, hcan⟩ := canonEntries_of_mem hc hm
  cases ho : e.oid with
  | blob c =>
    rw [ho] at hkind
    exact absurd ht hkind
  | tree subs =>
    rw [ho] at hkind
    exact ⟨subs, rfl, hkind.2, ho ▸ hcan⟩

theorem canon_entry_blob {es : List TreeEntry} {e : TreeEntry}
    (hc : canonEntries es = true) (hm : e ∈ es) (hb : e.mode ≠ "040000") :
    ∃ c, e.oid = .blob c := by
  obtain ⟨hkind, -⟩ := canonEntries_of_mem hc hm
  cases ho : e.oid with
  | blob c => exact ⟨c, rfl⟩
  | tree subs =>
    rw [ho] at hkind
    exact absurd hkind.1 hb

/-- Extract the pairwise condition from `ffCompatList` for a shared name. -/
theorem ffCompat_pair {bes tes : List TreeEntry} {q : String}
    {be te : TreeEntry} (h : ffCompatList bes tes = true)
    (hb : findEntry bes q = some be) (ht : findEntry tes q = some te) :
    (match be.oid, te.oid with
     | .blob c, .blob c' => c ≠ c' ∨ be.mode = te.mode
     | .tree _, .tree _ => ffCompatObj be.oid te.oid = true
     | _, _ => False) := by
  induction bes with
  | nil => cases hb
  | cons x bs ih =>
    obtain ⟨n, m, o⟩ := x
    obtain ⟨tn, tm, tOid⟩ := te
    simp only [ffCompatList, Bool.and_eq_true] at h
    unfold findEntry at hb
    simp only [List.find?] at hb
    cases hd : decide (TreeEntry.path (n, m, o) = q) with
    | true =>
      rw [hd] at hb
      cases hb
      have hnq : n = q := of_decide_eq_true hd
      rw [hnq, ht] at h
      have h1 := h.1
      cases o with
      | blob c =>
        cases tOid with
        | blob c' =>
          show c ≠ c' ∨ m = tm
          have h1' : (decide (c ≠ c') || decide (m = tm)) = true := h1
          cases hcc : decide (c ≠ c') with
          | true => exact Or.inl (of_decide_eq_true hcc)
          | false =>
            rw [hcc] at h1'
            exact Or.inr (of_decide_eq_true (by simpa using h1'))
        | tree s => exact Bool.noConfusion h1
      | tree s =>
        cases tOid with
        | blob c' => exact Bool.noConfusion h1
        | tree s' => exact h1
    | false =>
      rw [hd] at hb
      exact ih h.2 hb

theorem canon_entry_tree_mode {es : List TreeEntry} {e : TreeEntry}
    {subs : List (String × String × Obj)} (hc : canonEntries es = true)
    (hm : e ∈ es) (ht : e.oid = .tree subs) :
    e.mode = "040000" ∧ subs ≠ [] ∧ canonObj e.oid = true := by
  obtain ⟨hkind, hcan⟩ := canonEntries_of_mem hc hm
  rw [ht] at hkind
  exact ⟨hkind.1, hkind.2, hcan⟩

/-- In the directory branch of a fast-forward/no-op merge, both present
sides are canonical directories with compatible non-empty subtrees. -/
theorem ff_dir_facts {bes tes : List TreeEntry} {q : String}
    (hbc : canonEntries bes = true) (htc : canonEntries tes = true)
    (hcompat : ffCompatList bes tes = true)
    (hdir : ((findEntry bes q).any (fun e => e.etype = "tree") ||
             (findEntry tes q).any (fun e => e.etype = "tree")) = true) :
    treeOpt ((findEntry bes q).map TreeEntry.oid) = true ∧
    canonOpt ((findEntry bes q).map TreeEntry.oid) = true ∧
    treeOpt ((findEntry tes q).map TreeEntry.oid) = true ∧
    canonOpt ((findEntry tes q).map TreeEntry.oid) = true ∧
    ffCompatOpt ((findEntry bes q).map TreeEntry.oid)
      ((findEntry tes q).map TreeEntry.oid) = true ∧
    ((findEntry tes q).map TreeEntry.oid) ≠ some (.tree []) ∧
    (∀ te, findEntry tes q = some te → te.mode = "040000") := by
  cases hbo : findEntry bes q with
  | none =>
    cases hto : findEntry tes q with
    | none =>
      rw [hbo, hto] at hdir
      cases hdir
    | some te =>
      rw [hbo, hto] at hdir
      have htdir : te.etype = "tree" := by
        simpa [Option.any] using hdir
      have htmode : te.mode = "040000" := by
        by_contra hmm
        simp [TreeEntry.etype, hmm] at htdir
      obtain ⟨subs, hsubs, hne, hcan⟩ :=
        canon_entry_tree htc (findEntry_mem hto).1 htmode
      refine ⟨rfl, rfl, ?_, ?_, rfl, ?_, fun te' hte' => ?_⟩
      · simp [treeOpt, hsubs]
      · simpa [canonOpt] using hcan
      · simp only [Option.map_some', ne_eq, Option.some.injEq]
        rw [hsubs]
        intro hc2
        exact hne (by injection hc2)
      · cases hte'
        exact htmode
  | some be =>
    have hbe_mem := (findEntry_mem hbo).1
    cases hto : findEntry tes q with
    | none =>
      rw [hbo, hto] at hdir
      have hbdir : be.etype = "tree" := by
        simpa [Option.any] using hdir
      have hbmode : be.mode = "040000" := by
        by_contra hmm
        simp [TreeEntry.etype, hmm] at hbdir
      obtain ⟨subs, hsubs, hne, hcan⟩ := canon_entry_tree hbc hbe_mem hbmode
      refine ⟨?_, ?_, rfl, rfl, ?_, by simp, fun te' hte' => by cases hte'⟩
      · simp [treeOpt, hsubs]
      · simpa [canonOpt] using hcan
      · simp [ffCompatOpt]
    | some te =>
      have hte_mem := (findEntry_mem hto).1
      have hpair := ffCompat_pair hcompat hbo hto
      -- both sides must be trees
      have hboth : (∃ s1, be.oid = .tree s1) ∧ (∃ s2, te.oid = .tree s2) := by
        rw [hbo, hto] at hdir
        rcases Bool.or_eq_true_iff.mp hdir with hd | hd
        · have hbdir : be.etype = "tree" := by simpa [Option.any] using hd
          have hbmode : be.mode = "040000" := by
            by_contra hmm
            simp [TreeEntry.etype, hmm] at hbdir
          obtain ⟨s1, hs1, -, -⟩ := canon_entry_tree hbc hbe_mem hbmode
          refine ⟨⟨s1, hs1⟩, ?_⟩
          cases hs2 : te.oid with
          | blob c =>
            rw [hs1, hs2] at hpair
            cases hpair
          | tree s2 => exact ⟨s2, rfl⟩
        · have htdir : te.etype = "tree" := by simpa [Option.any] using hd
          have htmode : te.mode = "040000" := by
            by_contra hmm
            simp [TreeEntry.etype, hmm] at htdir
          obtain ⟨s2, hs2, -, -⟩ := canon_entry_tree htc hte_mem htmode
          refine ⟨?_, ⟨s2, hs2⟩⟩
          cases hs1 : be.oid with
          | blob c =>
            rw [hs1, hs2] at hpair
            cases hpair
          | tree s1 => exact ⟨s1, rfl⟩
      obtain ⟨⟨s1, hs1⟩, ⟨s2, hs2⟩⟩ := hboth
      obtain ⟨hbmode, hbne, hbcan⟩ := canon_entry_tree_mode hbc hbe_mem hs1
      obtain ⟨htmode, htne, htcan⟩ := canon_entry_tree_mode htc hte_mem hs2
      have hcompat2 : ffCompatObj be.oid te.oid = true := by
        rw [hs1, hs2] at hpair ⊢
        exact hpair
      refine ⟨?_, ?_, ?_, ?_, ?_, ?_, fun te' hte' => ?_⟩
      · simp [treeOpt, hs1]
      · simpa [canonOpt] using hbcan
      · simp [treeOpt, hs2]
      · simpa [canonOpt] using htcan
      · simpa [ffCompatOpt] using hcompat2
      · simp only [Option.map_some', ne_eq, Option.some.injEq]
        rw [hs2]
        intro hc2
        exact htne (by injection hc2)
      · cases hte'
        exact htmode

theorem filterMap_findEntry_perm :
    ∀ (names : List String) (tes : List TreeEntry), names.Nodup →
      (tes.map TreeEntry.path).Nodup → (∀ e ∈ tes, e.path ∈ names) →
      List.Perm (names.filterMap (fun p => findEntry tes p)) tes := by
  intro names
  induction names with
  | nil =>
    intro tes _ _ hsub
    cases tes with
    | nil => simp
    | cons e ts => exact absurd (hsub e (List.mem_cons_self e ts)) (List.not_mem_nil _)
  | cons n ns ih =>
    intro tes hnd htnd hsub
    have hnd' := List.nodup_cons.mp hnd
    rw [List.filterMap_cons]
    cases hf : findEntry tes n with
    | none =>
      have hsub' : ∀ e ∈ tes, e.path ∈ ns := by
        intro e he
        rcases List.mem_cons.mp (hsub e he) with hp | hp
        · exact absurd hp.symm (Ne.symm (findEntry_none_iff.mp hf e he))
        · exact hp
      exact ih tes hnd'.2 htnd hsub'
    | some e =>
      obtain ⟨hmem, hpath⟩ := findEntry_mem hf
      have hperm := perm_cons_filter htnd hf
      have htnd' : ((tes.filter (fun x => x.path ≠ n)).map
          TreeEntry.path).Nodup :=
        htnd.sublist ((List.filter_sublist tes).map TreeEntry.path)
      have hsub' : ∀ e2 ∈ tes.filter (fun x => x.path ≠ n), e2.path ∈ ns := by
        intro e2 he2
        have h1 := List.mem_filter.mp he2
        rcases List.mem_cons.mp (hsub e2 h1.1) with hp | hp
        · exact absurd hp (by simpa using h1.2)
        · exact hp
      have hcongr : ns.filterMap (fun p => findEntry tes p) =
          ns.filterMap (fun p => findEntry (tes.filter
            (fun x => x.path ≠ n)) p) := by
        apply List.filterMap_congr
        intro p hp
        have hpn : p ≠ n := fun hc => hnd'.1 (hc ▸ hp)
        rw [findEntry_filter_ne hpn]
      rw [hcongr]
      exact ((ih _ hnd'.2 htnd' hsub').cons e).trans hperm.symm

theorem mergeLoop_ff (fuel : Nat) (res : List (String × String))
    (bes tes : List TreeEntry)
    (IH : ∀ b t : Option Obj, treeOpt b = true → treeOpt t = true →
      canonOpt b = true → canonOpt t = true → ffCompatOpt b t = true →
      t ≠ some (.tree []) →
      (mergeTrees fuel res b b t).2 = .error .outOfFuel ∨
        (mergeTrees fuel res b b t).2 = .ok t)
    (hbc : canonEntries bes = true) (htc : canonEntries tes = true)
    (hcompat : ffCompatList bes tes = true) :
    ∀ names : List String,
      (mergeLoop (mergeTrees fuel res) res bes bes tes names).2 =
        .error .outOfFuel ∨
      (mergeLoop (mergeTrees fuel res) res bes bes tes names).2 =
        .ok (names.filterMap (fun p => findEntry tes p)) := by
  intro names
  induction names with
  | nil => exact Or.inr rfl
  | cons q ps ihn =>
    rcases hps : mergeLoop (mergeTrees fuel res) res bes bes tes ps
      with ⟨pl, pr⟩
    rw [hps] at ihn
    have combine : ∀ v : Option TreeEntry, some v =
        some (findEntry tes q) →
        (Except.map (fun es => v.toList ++ es) pr =
            (.error .outOfFuel : Except Err (List TreeEntry)) ∨
         Except.map (fun es => v.toList ++ es) pr =
            .ok ((q :: ps).filterMap (fun p => findEntry tes p))) := by
      intro v hv
      have hv' : v = findEntry tes q := by injection hv
      rcases ihn with ihn | ihn
      · have hpr : pr = .error .outOfFuel := by simpa using ihn
        subst hpr
        exact Or.inl rfl
      · have hpr : pr = .ok (ps.filterMap fun p => findEntry tes p) := by
          simpa using ihn
        subst hpr
        right
        rw [List.filterMap_cons, ← hv']
        cases v with
        | none => rfl
        | some e => rfl
    simp only [mergeLoop]
    split
    · -- directory recursion
      rename_i hdir
      obtain ⟨f1, f2, f3, f4, f5, f6, f7⟩ := ff_dir_facts hbc htc hcompat hdir
      have hsub := IH ((findEntry bes q).map TreeEntry.oid)
        ((findEntry tes q).map TreeEntry.oid) f1 f3 f2 f4 f5 f6
      rcases hmt : mergeTrees fuel res ((findEntry bes q).map TreeEntry.oid)
          ((findEntry bes q).map TreeEntry.oid)
          ((findEntry tes q).map TreeEntry.oid) with ⟨slog, sr⟩
      rw [hmt] at hsub
      cases sr with
      | error e =>
        rcases hsub with hsub | hsub
        · have he : e = Err.outOfFuel := by simpa using hsub
          subst he
          exact Or.inl rfl
        · exact absurd hsub (by simp)
      | ok o =>
        rcases hsub with hsub | hsub
        · exact absurd hsub (by simp)
        · have ho : o = (findEntry tes q).map TreeEntry.oid := by
            simpa using hsub
          subst ho
          cases hto : findEntry tes q with
          | none =>
            simp only [Option.map_none']
            rw [hps]
            rcases ihn with ihn | ihn
            · have hpr : pr = .error .outOfFuel := by simpa using ihn
              subst hpr
              exact Or.inl rfl
            · have hpr : pr = .ok (ps.filterMap fun p => findEntry tes p) := by
                simpa using ihn
              subst hpr
              right
              show Except.ok _ = _
              rw [List.filterMap_cons, hto]
          | some te =>
            have htmode := f7 te hto
            have htpath := (findEntry_mem hto).2
            have hentry : ((q, "040000", TreeEntry.oid te) : TreeEntry) = te := by
              obtain ⟨tp, tm, toid⟩ := te
              simp only [TreeEntry.path] at htpath
              simp only [TreeEntry.mode] at htmode
              rw [htpath, htmode]
              rfl
            simp only [Option.map_some']
            rw [hps]
            have := combine (some te) (by rw [hto])
            rw [hentry]
            exact this
    · -- blob rules
      rename_i hdir
      split
      · rename_i heq
        have hfound : findEntry bes q = findEntry tes q := by
          have hdir' : ((findEntry bes q).any (fun e => e.etype = "tree") ||
              (findEntry tes q).any (fun e => e.etype = "tree")) = false := by
            revert hdir
            cases ((findEntry bes q).any (fun e => e.etype = "tree") ||
              (findEntry tes q).any (fun e => e.etype = "tree")) <;> simp
          cases hbo : findEntry bes q with
          | none =>
            cases hto : findEntry tes q with
            | none => rfl
            | some te =>
              rw [hbo, hto] at heq
              cases heq
          | some be =>
            cases hto : findEntry tes q with
            | none =>
              rw [hbo, hto] at heq
              cases heq
            | some te =>
              rw [hbo, hto] at heq
              have hoid : be.oid = te.oid := by simpa using heq
              rw [hbo, hto] at hdir'
              have hbmode : be.mode ≠ "040000" := by
                intro hc
                simp [Option.any, TreeEntry.etype, hc] at hdir'
              have htmode2 : te.mode ≠ "040000" := by
                intro hc
                simp [Option.any, TreeEntry.etype, hc] at hdir'
              obtain ⟨c, hc⟩ := canon_entry_blob hbc (findEntry_mem hbo).1 hbmode
              obtain ⟨c', hc'⟩ := canon_entry_blob htc (findEntry_mem hto).1 htmode2
              have hpair := ffCompat_pair hcompat hbo hto
              rw [hc, hc'] at hpair
              have hcc : c = c' := by
                have := hoid
                rw [hc, hc'] at this
                injection this
              have hmode : be.mode = te.mode := by
                rcases hpair with hp | hp
                · exact absurd hcc hp
                · exact hp
              obtain ⟨bp, bm, boid⟩ := be
              obtain ⟨tp, tm, toid⟩ := te
              have h1 := (findEntry_mem hbo).2
              have h2 := (findEntry_mem hto).2
              simp only [TreeEntry.path] at h1 h2
              simp only [TreeEntry.mode] at hmode
              simp only [TreeEntry.oid] at hoid
              rw [show bp = tp from h1.trans h2.symm, hmode, hoid]
        rw [hps]
        have := combine (findEntry bes q) (by rw [hfound])
        exact this
      · rename_i hne
        split
        · rename_i hcond
          rw [hps]
          exact combine (findEntry tes q) rfl
        · rename_i hcond
          exact absurd ⟨trivial, fun hth => hne hth.symm⟩ hcond

theorem mergeLoop_noop (fuel : Nat) (res : List (String × String))
    (bes tes : List TreeEntry)
    (IH : ∀ b t : Option Obj, treeOpt b = true → treeOpt t = true →
      canonOpt b = true → canonOpt t = true → ffCompatOpt b t = true →
      t ≠ some (.tree []) →
      (mergeTrees fuel res b t b).2 = .error .outOfFuel ∨
        (mergeTrees fuel res b t b).2 = .ok t)
    (hbc : canonEntries bes = true) (htc : canonEntries tes = true)
    (hcompat : ffCompatList bes tes = true) :
    ∀ names : List String,
      (mergeLoop (mergeTrees fuel res) res bes tes bes names).2 =
        .error .outOfFuel ∨
      (mergeLoop (mergeTrees fuel res) res bes tes bes names).2 =
        .ok (names.filterMap (fun p => findEntry tes p)) := by
  intro names
  induction names with
  | nil => exact Or.inr rfl
  | cons q ps ihn =>
    rcases hps : mergeLoop (mergeTrees fuel res) res bes tes bes ps
      with ⟨pl, pr⟩
    rw [hps] at ihn
    have combine : ∀ v : Option TreeEntry, some v =
        some (findEntry tes q) →
        (Except.map (fun es => v.toList ++ es) pr =
            (.error .outOfFuel : Except Err (List TreeEntry)) ∨
         Except.map (fun es => v.toList ++ es) pr =
            .ok ((q :: ps).filterMap (fun p => findEntry tes p))) := by
      intro v hv
      have hv' : v = findEntry tes q := by injection hv
      rcases ihn with ihn | ihn
      · have hpr : pr = .error .outOfFuel := by simpa using ihn
        subst hpr
        exact Or.inl rfl
      · have hpr : pr = .ok (ps.filterMap fun p => findEntry tes p) := by
          simpa using ihn
        subst hpr
        right
        rw [List.filterMap_cons, ← hv']
        cases v with
        | none => rfl
        | some e => rfl
    simp only [mergeLoop]
    split
    · -- directory recursion
      rename_i hdir
      rw [Bool.or_comm] at hdir
      obtain ⟨f1, f2, f3, f4, f5, f6, f7⟩ := ff_dir_facts hbc htc hcompat hdir
      have hsub := IH ((findEntry bes q).map TreeEntry.oid)
        ((findEntry tes q).map TreeEntry.oid) f1 f3 f2 f4 f5 f6
      rcases hmt : mergeTrees fuel res ((findEntry bes q).map TreeEntry.oid)
          ((findEntry tes q).map TreeEntry.oid)
          ((findEntry bes q).map TreeEntry.oid) with ⟨slog, sr⟩
      rw [hmt] at hsub
      cases sr with
      | error e =>
        rcases hsub with hsub | hsub
        · have he : e = Err.outOfFuel := by simpa using hsub
          subst he
          exact Or.inl rfl
        · exact absurd hsub (by simp)
      | ok o =>
        rcases hsub with hsub | hsub
        · exact absurd hsub (by simp)
        · have ho : o = (findEntry tes q).map TreeEntry.oid := by
            simpa using hsub
          subst ho
          cases hto : findEntry tes q with
          | none =>
            simp only [Option.map_none']
            rw [hps]
            rcases ihn with ihn | ihn
            · have hpr : pr = .error .outOfFuel := by simpa using ihn
              subst hpr
              exact Or.inl rfl
            · have hpr : pr = .ok (ps.filterMap fun p => findEntry tes p) := by
                simpa using ihn
              subst hpr
              right
              show Except.ok _ = _
              rw [List.filterMap_cons, hto]
          | some te =>
            have htmode := f7 te hto
            have htpath := (findEntry_mem hto).2
            have hentry : ((q, "040000", TreeEntry.oid te) : TreeEntry) = te := by
              obtain ⟨tp, tm, toid⟩ := te
              simp only [TreeEntry.path] at htpath
              simp only [TreeEntry.mode] at htmode
              rw [htpath, htmode]
              rfl
            simp only [Option.map_some']
            rw [hps]
            have := combine (some te) (by rw [hto])
            rw [hentry]
            exact this
    · -- blob rules: ours is the T side, theirs equals base
      rename_i hdir
      split
      · rename_i heq
        rw [hps]
        exact combine (findEntry tes q) rfl
      · rename_i hne
        split
        · rename_i hcond
          exact absurd rfl hcond.2
        · rename_i hcond2
          split
          · rename_i hcond3
            rw [hps]
            exact combine (findEntry tes q) rfl
          · rename_i hcond3
            exact absurd ⟨hne, trivial⟩ hcond3

theorem rootEntries (x : Option Obj) (htree : treeOpt x = true)
    (hcanon : canonOpt x = true) :
    ∃ es, readEntriesOpt x = .ok es ∧ canonEntries es = true ∧
      pathsSorted es = true ∧ (x = some (.tree es) ∨ (x = none ∧ es = [])) := by
  cases x with
  | none => exact ⟨[], rfl, rfl, rfl, Or.inr ⟨rfl, rfl⟩⟩
  | some o =>
    cases o with
    | blob s => cases htree
    | tree es =>
      have hc := canon_tree_iff.mp (by simpa [canonOpt] using hcanon)
      exact ⟨es, rfl, hc.2, hc.1, Or.inl rfl⟩

theorem ffCompatList_nil_right : ∀ l : List (String × String × Obj),
    ffCompatList l [] = true
  | [] => rfl
  | (n, m, o) :: bs => by
    simp only [ffCompatList, findEntry, List.find?]
    exact ffCompatList_nil_right bs

theorem writeTree_filterMap {names : List String} {tes : List TreeEntry}
    (hn : names.Nodup) (hts : pathsSorted tes = true)
    (hsubset : ∀ e ∈ tes, e.path ∈ names) :
    writeTree (names.filterMap (fun p => findEntry tes p)) = .tree tes := by
  have htLT := pathsSorted_iff_sorted_lt.mp hts
  have htnd := nodup_of_sorted_lt htLT
  have hperm := filterMap_findEntry_perm names tes hn htnd hsubset
  have hperm2 : List.Perm
      (sortEntries (names.filterMap (fun p => findEntry tes p))) tes :=
    (sortEntries_perm _).trans hperm
  have hnd2 : ((sortEntries (names.filterMap
      (fun p => findEntry tes p))).map TreeEntry.path).Nodup :=
    ((hperm2.map TreeEntry.path).nodup_iff).mpr htnd
  have hsorted := sorted_lt_of_nodup (sorted_sortEntries _) hnd2
  unfold writeTree
  rw [eq_of_perm_sorted hperm2 hsorted htLT]

theorem mergeStep_entries
    (mt : Option Obj → Option Obj → Option Obj →
      List Obj × Except Err (Option Obj))
    (res : List (String × String)) {b o t : Option Obj}
    {bes oes tes : List TreeEntry} (hb : readEntriesOpt b = .ok bes)
    (ho : readEntriesOpt o = .ok oes) (ht : readEntriesOpt t = .ok tes) :
    mergeStep mt res b o t =
      (match mergeLoop mt res bes oes tes
          (dedup (bes.map TreeEntry.path ++ oes.map TreeEntry.path ++
            tes.map TreeEntry.path)) with
       | (log, .error e) => (log, .error e)
       | (log, .ok []) => (log, .ok none)
       | (log, .ok es) => (log ++ [writeTree es], .ok (some (writeTree es)))) := by
  simp only [mergeStep, hb, ho, ht]

theorem merge_ff_noop (res : List (String × String)) :
    ∀ (fuel : Nat) (b t : Option Obj), treeOpt b = true → treeOpt t = true →
      canonOpt b = true → canonOpt t = true → ffCompatOpt b t = true →
      t ≠ some (.tree []) →
      ((mergeTrees fuel res b b t).2 = .error .outOfFuel ∨
        (mergeTrees fuel res b b t).2 = .ok t) ∧
      ((mergeTrees fuel res b t b).2 = .error .outOfFuel ∨
        (mergeTrees fuel res b t b).2 = .ok t) := by
  intro fuel
  induction fuel with
  | zero =>
    intro b t _ _ _ _ _ _
    exact ⟨Or.inl rfl, Or.inl rfl⟩
  | succ fuel ih =>
    intro b t h1 h2 h3 h4 h5 h6
    obtain ⟨bes, hbes, hbcE, hbsS, hbshape⟩ := rootEntries b h1 h3
    obtain ⟨tes, htes, htcE, htsS, htshape⟩ := rootEntries t h2 h4
    have hcl : ffCompatList bes tes = true := by
      rcases hbshape with hb' | ⟨hb', hbnil⟩
      · rcases htshape with ht' | ⟨ht', htnil⟩
        · rw [hb', ht'] at h5
          exact h5
        · subst htnil
          exact ffCompatList_nil_right bes
      · subst hbnil
        rfl
    have htnd := nodup_of_sorted_lt (pathsSorted_iff_sorted_lt.mp htsS)
    constructor
    · -- fast-forward: merge(B, B, T) = T
      have hloopd := mergeLoop_ff fuel res bes tes
        (fun b' t' a1 a2 a3 a4 a5 a6 => (ih b' t' a1 a2 a3 a4 a5 a6).1)
        hbcE htcE hcl
        (dedup (bes.map TreeEntry.path ++ bes.map TreeEntry.path ++
          tes.map TreeEntry.path))
      have hsubset : ∀ e ∈ tes, e.path ∈
          dedup (bes.map TreeEntry.path ++ bes.map TreeEntry.path ++
            tes.map TreeEntry.path) := by
        intro e he
        rw [mem_dedup]
        exact List.mem_append_right _ (List.mem_map_of_mem TreeEntry.path he)
      have hperm := filterMap_findEntry_perm
        (dedup (bes.map TreeEntry.path ++ bes.map TreeEntry.path ++
          tes.map TreeEntry.path)) tes (nodup_dedup _) htnd hsubset
      show (mergeStep (mergeTrees fuel res) res b b t).2 =
          Except.error Err.outOfFuel ∨
        (mergeStep (mergeTrees fuel res) res b b t).2 = Except.ok t
      rw [mergeStep_entries (mergeTrees fuel res) res hbes hbes htes]
      rcases hloop : mergeLoop (mergeTrees fuel res) res bes bes tes
          (dedup (bes.map TreeEntry.path ++ bes.map TreeEntry.path ++
            tes.map TreeEntry.path)) with ⟨ll, lr⟩
      rw [hloop] at hloopd
      cases lr with
      | error e =>
        rcases hloopd with hd | hd
        · have he : e = Err.outOfFuel := by simpa using hd
          subst he
          exact Or.inl rfl
        · exact absurd hd (by simp)
      | ok es =>
        rcases hloopd with hd | hd
        · exact absurd hd (by simp)
        · have hes : es = (dedup (bes.map TreeEntry.path ++
              bes.map TreeEntry.path ++ tes.map TreeEntry.path)).filterMap
                (fun p => findEntry tes p) := by simpa using hd
          subst hes
          rcases hfm : (dedup (bes.map TreeEntry.path ++
              bes.map TreeEntry.path ++ tes.map TreeEntry.path)).filterMap
                (fun p => findEntry tes p) with - | ⟨x, xs⟩
          · rw [hfm] at hperm
            have htnil : tes = [] := hperm.symm.eq_nil
            have ht' : t = none := by
              rcases htshape with ht' | ⟨ht', -⟩
              · rw [htnil] at ht'
                exact absurd ht' h6
              · exact ht'
            right
            rw [ht']
          · rcases htshape with ht' | ⟨ht', htnil⟩
            · right
              show Except.ok (some (writeTree (x :: xs))) = .ok t
              rw [← hfm,
                writeTree_filterMap (nodup_dedup _) htsS hsubset, ht']
            · subst htnil
              rw [hfm] at hperm
              exact absurd hperm.eq_nil (by simp)
    · -- no-op: merge(B, T, B) = T
      have hloopd := mergeLoop_noop fuel res bes tes
        (fun b' t' a1 a2 a3 a4 a5 a6 => (ih b' t' a1 a2 a3 a4 a5 a6).2)
        hbcE htcE hcl
        (dedup (bes.map TreeEntry.path ++ tes.map TreeEntry.path ++
          bes.map TreeEntry.path))
      have hsubset : ∀ e ∈ tes, e.path ∈
          dedup (bes.map TreeEntry.path ++ tes.map TreeEntry.path ++
            bes.map TreeEntry.path) := by
        intro e he
        rw [mem_dedup]
        exact List.mem_append_left _
          (List.mem_append_right _ (List.mem_map_of_mem TreeEntry.path he))
      have hperm := filterMap_findEntry_perm
        (dedup (bes.map TreeEntry.path ++ tes.map TreeEntry.path ++
          bes.map TreeEntry.path)) tes (nodup_dedup _) htnd hsubset
      show (mergeStep (mergeTrees fuel res) res b t b).2 =
          Except.error Err.outOfFuel ∨
        (mergeStep (mergeTrees fuel res) res b t b).2 = Except.ok t
      rw [mergeStep_entries (mergeTrees fuel res) res hbes htes hbes]
      rcases hloop : mergeLoop (mergeTrees fuel res) res bes tes bes
          (dedup (bes.map TreeEntry.path ++ tes.map TreeEntry.path ++
            bes.map TreeEntry.path)) with ⟨ll, lr⟩
      rw [hloop] at hloopd
      cases lr with
      | error e =>
        rcases hloopd with hd | hd
        · have he : e = Err.outOfFuel := by simpa using hd
          subst he
          exact Or.inl rfl
        · exact absurd hd (by simp)
      | ok es =>
        rcases hloopd with hd | hd
        · exact absurd hd (by simp)
        · have hes : es = (dedup (bes.map TreeEntry.path ++
              tes.map TreeEntry.path ++ bes.map TreeEntry.path)).filterMap
                (fun p => findEntry tes p) := by simpa using hd
          subst hes
          rcases hfm : (dedup (bes.map TreeEntry.path ++
              tes.map TreeEntry.path ++ bes.map TreeEntry.path)).filterMap
                (fun p => findEntry tes p) with - | ⟨x, xs⟩
          · rw [hfm] at hperm
            have htnil : tes = [] := hperm.symm.eq_nil
            have ht' : t = none := by
              rcases htshape with ht' | ⟨ht', -⟩
              · rw [htnil] at ht'
                exact absurd ht' h6
              · exact ht'
            right
            rw [ht']
          · rcases htshape with ht' | ⟨ht', htnil⟩
            · right
              show Except.ok (some (writeTree (x :: xs))) = .ok t
              rw [← hfm,
                writeTree_filterMap (nodup_dedup _) htsS hsubset, ht']
            · subst htnil
              rw [hfm] at hperm
              exact absurd hperm.eq_nil (by simp)

/-- C7 counterexample, two failure modes of the unqualified claim.  First:
B and T hold the same blob content at the same name under different modes;
merge(B, B, T) keeps OUR entry (mode 100755) because the oids match, so the
result differs from T (mode 100644).  Second: B has a name as a blob where T
has it as a directory; the directory rule recurses into B's blob hash, so
both merge(B, B, T) and merge(B, T, B) abort with an object-type error
instead of returning T. -/
theorem c7_counterexample :
    ((mergeTrees 10 [] (some (.tree [("f", "100755", .blob "H")]))
        (some (.tree [("f", "100755", .blob "H")]))
        (some (.tree [("f", "100644", .blob "H")]))).2 =
      .ok (some (.tree [("f", "100755", .blob "H")])) ∧
    (Except.ok (some (Obj.tree [("f", "100755", Obj.blob "H")])) :
        Except Err (Option Obj)) ≠
      .ok (some (.tree [("f", "100644", .blob "H")]))) ∧
    (mergeTrees 10 [] (some (.tree [("f", "100644", .blob "H")]))
        (some (.tree [("f", "100644", .blob "H")]))
        (some (.tree [("f", "040000",
          .tree [("g", "100644", .blob "G")])]))).2 =
      .error .objectType ∧
    (mergeTrees 10 [] (some (.tree [("f", "100644", .blob "H")]))
        (some (.tree [("f", "040000",
          .tree [("g", "100644", .blob "G")])]))
        (some (.tree [("f", "100644", .blob "H")]))).2 =
      .error .objectType := by
  refine ⟨⟨?_, ?_⟩, ?_, ?_⟩
  · decide
  · decide
  · decide
  · decide

/-- C7 (amended): for canonically shaped roots B and T that are
fast-forward compatible — at every name they share, recursively, the two
sides agree on blob-vs-directory kind, and blobs shared with identical
content carry the same mode — and with T not the literal empty tree object,
whenever the fuel suffices merge(B, B, T) returns exactly T (fast-forward)
and merge(B, T, B) returns exactly T (no-op merge). -/
theorem c7_ff_noop_merge (res : List (String × String)) (fuel : Nat)
    (b t : Option Obj)
    (h1 : treeOpt b = true) (h2 : treeOpt t = true)
    (h3 : canonOpt b = true) (h4 : canonOpt t = true)
    (h5 : ffCompatOpt b t = true) (h6 : t ≠ some (.tree []))
    (hf1 : (mergeTrees fuel res b b t).2 ≠ .error .outOfFuel)
    (hf2 : (mergeTrees fuel res b t b).2 ≠ .error .outOfFuel) :
    (mergeTrees fuel res b b t).2 = .ok t ∧
      (mergeTrees fuel res b t b).2 = .ok t := by
  obtain ⟨hff, hnoop⟩ := merge_ff_noop res fuel b t h1 h2 h3 h4 h5 h6
  exact ⟨hff.resolve_left hf1, hnoop.resolve_left hf2⟩

/-- C7 witness: a concrete fast-forward/no-op pair on canonical trees. -/
theorem c7_witness :
    (mergeTrees 5 [] (some (.tree [("a", "100644", .blob "x")]))
        (some (.tree [("a", "100644", .blob "x")]))
        (some (.tree [("a", "100644", .blob "x"),
          ("b", "100644", .blob "y")]))).2 =
      .ok (some (.tree [("a", "100644", .blob "x"),
        ("b", "100644", .blob "y")])) ∧
    (mergeTrees 5 [] (some (.tree [("a", "100644", .blob "x")]))
        (some (.tree [("a", "100644", .blob "x"),
          ("b", "100644", .blob "y")]))
        (some (.tree [("a", "100644", .blob "x")]))).2 =
      .ok (some (.tree [("a", "100644", .blob "x"),
        ("b", "100644", .blob "y")])) :=
  c7_ff_noop_merge [] 5
    (some (.tree [("a", "100644", .blob "x")]))
    (some (.tree [("a", "100644", .blob "x"), ("b", "100644", .blob "y")]))
    (by decide) (by decide) (by decide) (by decide) (by decide) (by decide)
    (by decide) (by decide)

/-- Two paths diverge: they differ at some segment before either path ends,
so neither is a prefix of the other. -/
def diverge : List String → List String → Bool
  | c :: cs, d :: ds => if c = d then diverge cs ds else true
  | _, _ => false

/-- Frame property of upsertTree: a successful read at any path diverging
from the upserted one returns the same (mode, type, hash) triple afterwards. -/
theorem upsert_frame (segs : List String) :
    ∀ (t X t' : Obj) (q : List String) (v : String × String × Obj),
      wfObj t = true → upsertTree (some t) segs X = .ok t' →
      diverge segs q = true → resolveBlobEntry t q = .ok v →
      resolveBlobEntry t' q = .ok v := by
  induction segs with
  | nil =>
    intro t X t' q v _ h _ _
    simp [upsertTree] at h
  | cons c rest ih =>
    intro t X t' q v hwf h hdiv hq
    cases t with
    | blob s =>
      rw [upsertTree_blob] at h
      cases h
    | tree es =>
      obtain ⟨hnd, hwfe⟩ := wf_tree_iff.mp hwf
      cases q with
      | nil =>
        cases rest <;> simp [diverge] at hdiv
      | cons d qs =>
        rw [resolveBlobEntry_tree] at hq
        cases rest with
        | nil =>
          have hcd : ¬ c = d := by
            intro he
            subst he
            simp [diverge] at hdiv
          rw [upsertTree_tree_last] at h
          cases h
          show resolveBlobEntry (.tree (sortEntries
              (es.filter (fun e => TreeEntry.path e ≠ c) ++
                [(c, "100644", X)])))
            (d :: qs) = .ok v
          rw [resolveBlobEntry_tree,
            findEntry_level_old hnd (fun he => hcd he.symm)]
          exact hq
        | cons r rs =>
          rw [upsertTree_tree_step] at h
          cases hsub : upsertTree ((findEntry es c).map (·.oid)) (r :: rs) X
            with
          | error e =>
            rw [hsub] at h
            cases h
          | ok newSub =>
            rw [hsub] at h
            by_cases hcd : c = d
            · subst hcd
              have hdiv' : diverge (r :: rs) qs = true := by
                simpa [diverge] using hdiv
              cases hfe : findEntry es c with
              | none =>
                rw [hfe] at hq
                cases hq
              | some e =>
                rw [hfe] at hq
                cases qs with
                | nil => simp [diverge] at hdiv'
                | cons q1 qs' =>
                  have hq2 : (if e.etype = "tree" then
                      resolveBlobEntry e.oid (q1 :: qs')
                    else Except.error (Err.typeMismatch c)) = Except.ok v := hq
                  by_cases het : e.etype = "tree"
                  · rw [if_pos het] at hq2
                    have hwfo : wfObj e.oid = true :=
                      wfObj_of_mem hwfe (findEntry_mem hfe).1
                    rw [hfe] at hsub
                    have hrec := ih e.oid X newSub (q1 :: qs') v hwfo hsub
                      hdiv' hq2
                    cases h
                    show resolveBlobEntry (.tree (sortEntries
                        (es.filter (fun e => TreeEntry.path e ≠ c) ++
                          [(c, "040000", newSub)])))
                      (c :: q1 :: qs') = .ok v
                    rw [resolveBlobEntry_tree, findEntry_level_new hnd]
                    exact hrec
                  · rw [if_neg het] at hq2
                    cases hq2
            · cases h
              show resolveBlobEntry (.tree (sortEntries
                  (es.filter (fun e => TreeEntry.path e ≠ c) ++
                    [(c, "040000", newSub)])))
                (d :: qs) = .ok v
              rw [resolveBlobEntry_tree,
                findEntry_level_old hnd (fun he => hcd he.symm)]
              exact hq

/-- C8: after a successful upsert of blob X at segs into a well-formed tree,
reading back segs yields exactly X as a regular-mode blob, and every readable
path that diverges from segs (is not on the root-to-leaf line) still resolves
to its original (mode, type, hash) triple — unrelated entries are reused by
hash unchanged. -/
theorem c8_upsert_roundtrip_and_frame (segs q : List String) (t X t' : Obj)
    (v : String × String × Obj)
    (hwf : wfObj t = true)
    (h : upsertTree (some t) segs X = .ok t')
    (hdiv : diverge segs q = true)
    (hq : resolveBlobEntry t q = .ok v) :
    resolveBlobEntry t' segs = .ok ("100644", "blob", X) ∧
      resolveBlobEntry t' q = .ok v :=
  ⟨upsert_resolve segs (some t) X t' hwf h,
   upsert_frame segs t X t' q v hwf h hdiv hq⟩

/-- C8 witness: upsert a/b := "X" into a tree holding a/b = "old" and z = "Z";
a/b reads back "X" and the unrelated z entry is untouched. -/
theorem c8_witness :
    resolveBlobEntry
        (.tree [("a", "040000", .tree [("b", "100644", .blob "X")]),
          ("z", "100644", .blob "Z")]) ["a", "b"] =
      .ok ("100644", "blob", .blob "X") ∧
    resolveBlobEntry
        (.tree [("a", "040000", .tree [("b", "100644", .blob "X")]),
          ("z", "100644", .blob "Z")]) ["z"] =
      .ok ("100644", "blob", .blob "Z") :=
  c8_upsert_roundtrip_and_frame ["a", "b"] ["z"]
    (.tree [("a", "040000", .tree [("b", "100644", .blob "old")]),
      ("z", "100644", .blob "Z")])
    (.blob "X")
    (.tree [("a", "040000", .tree [("b", "100644", .blob "X")]),
      ("z", "100644", .blob "Z")])
    ("100644", "blob", .blob "Z")
    (by decide) (by decide) (by decide) (by decide)

/-- The path is absent from the tree: traversal stops at a missing entry,
and every earlier segment names a directory-typed entry. -/
def pathMissing : Obj → List String → Bool
  | _, [] => false
  | .blob _, _ :: _ => false
  | .tree es, c :: rest =>
    match findEntry es c with
    | none => true
    | some e =>
      match rest with
      | [] => false
      | _ => if e.etype = "tree" then pathMissing e.oid rest else false

theorem pathMissing_tree (es : List TreeEntry) (c : String)
    (rest : List String) :
    pathMissing (.tree es) (c :: rest) =
      (match findEntry es c with
       | none => true
       | some e =>
         match rest with
         | [] => false
         | _ => if e.etype = "tree" then pathMissing e.oid rest else false) :=
  rfl

theorem sorted_le_of_lt {l : List TreeEntry} (h : l.Sorted entryLT) :
    l.Sorted entryLE :=
  List.Pairwise.imp (fun hab => (strLt_iff.mp hab).1) h

theorem filter_upsert_level (es : List TreeEntry) (c m : String) (v : Obj) :
    ((es.filter (fun x => TreeEntry.path x ≠ c) ++ [(c, m, v)]).filter
      (fun x => TreeEntry.path x ≠ c)) =
      es.filter (fun x => TreeEntry.path x ≠ c) := by
  rw [List.filter_append]
  have h1 : (es.filter (fun x => TreeEntry.path x ≠ c)).filter
      (fun x => TreeEntry.path x ≠ c) =
      es.filter (fun x => TreeEntry.path x ≠ c) :=
    List.filter_eq_self.mpr (fun a ha => (List.mem_filter.mp ha).2)
  have h2 : ([((c, m, v) : TreeEntry)]).filter
      (fun x => TreeEntry.path x ≠ c) = [] := by
    simp [TreeEntry.path]
  rw [h1, h2, List.append_nil]

theorem sorted_lt_sortEntries {l : List TreeEntry}
    (hn : (l.map TreeEntry.path).Nodup) : (sortEntries l).Sorted entryLT :=
  sorted_lt_of_nodup (sorted_sortEntries l)
    (((sortEntries_perm l).map TreeEntry.path).nodup_iff.mpr hn)

theorem eraseFirst_upsert_restore {es : List TreeEntry} {c m : String}
    {v : Obj} (hnd : (es.map TreeEntry.path).Nodup)
    (hs : es.Sorted entryLT) :
    eraseFirst c (sortEntries (es.filter (fun x => TreeEntry.path x ≠ c) ++
        [(c, m, v)])) =
      es.filter (fun x => TreeEntry.path x ≠ c) := by
  have hndM : ((es.filter (fun x => TreeEntry.path x ≠ c) ++
      [(c, m, v)]).map TreeEntry.path).Nodup := nodup_upsert_level hnd
  have hndL : ((sortEntries (es.filter (fun x => TreeEntry.path x ≠ c) ++
      [(c, m, v)])).map TreeEntry.path).Nodup :=
    ((sortEntries_perm _).map TreeEntry.path).nodup_iff.mpr hndM
  rw [eraseFirst_eq_filter hndL]
  have hpermf : List.Perm
      ((sortEntries (es.filter (fun x => TreeEntry.path x ≠ c) ++
        [(c, m, v)])).filter (fun x => TreeEntry.path x ≠ c))
      (es.filter (fun x => TreeEntry.path x ≠ c)) := by
    have hstep := (sortEntries_perm (es.filter
        (fun x => TreeEntry.path x ≠ c) ++ [(c, m, v)])).filter
      (fun x => TreeEntry.path x ≠ c)
    rwa [filter_upsert_level] at hstep
  refine eq_of_perm_sorted hpermf ?_ ?_
  · exact List.Pairwise.sublist (List.filter_sublist _)
      (sorted_lt_sortEntries hndM)
  · exact List.Pairwise.sublist (List.filter_sublist _) hs

theorem updateOid_upsert_restore {es : List TreeEntry} {c : String}
    {e : TreeEntry} {v : Obj} (hnd : (es.map TreeEntry.path).Nodup)
    (hs : es.Sorted entryLT) (hfe : findEntry es c = some e) :
    updateOid c e.oid (sortEntries
      (es.filter (fun x => TreeEntry.path x ≠ c) ++ [(c, e.mode, v)])) =
      es := by
  have hndM : ((es.filter (fun x => TreeEntry.path x ≠ c) ++
      [(c, e.mode, v)]).map TreeEntry.path).Nodup := nodup_upsert_level hnd
  have hndL : ((sortEntries (es.filter (fun x => TreeEntry.path x ≠ c) ++
      [(c, e.mode, v)])).map TreeEntry.path).Nodup :=
    ((sortEntries_perm _).map TreeEntry.path).nodup_iff.mpr hndM
  have hfL : findEntry (sortEntries
      (es.filter (fun x => TreeEntry.path x ≠ c) ++ [(c, e.mode, v)])) c =
      some (c, e.mode, v) := findEntry_level_new hnd
  have hperm : List.Perm
      (updateOid c e.oid (sortEntries
        (es.filter (fun x => TreeEntry.path x ≠ c) ++ [(c, e.mode, v)])))
      ((c, TreeEntry.mode (c, e.mode, v), e.oid) ::
        (sortEntries (es.filter (fun x => TreeEntry.path x ≠ c) ++
          [(c, e.mode, v)])).filter (fun x => TreeEntry.path x ≠ c)) :=
    updateOid_perm hndL hfL
  have hE : ((c, TreeEntry.mode (c, e.mode, v), e.oid) : TreeEntry) = e := by
    have hp : e.path = c := (findEntry_mem hfe).2
    obtain ⟨p1, m1, o1⟩ := e
    have hp' : p1 = c := hp
    show ((c, m1, o1) : TreeEntry) = (p1, m1, o1)
    rw [hp']
  rw [hE] at hperm
  have hpermf : List.Perm
      ((sortEntries (es.filter (fun x => TreeEntry.path x ≠ c) ++
        [(c, e.mode, v)])).filter (fun x => TreeEntry.path x ≠ c))
      (es.filter (fun x => TreeEntry.path x ≠ c)) := by
    have hstep := (sortEntries_perm (es.filter
        (fun x => TreeEntry.path x ≠ c) ++ [(c, e.mode, v)])).filter
      (fun x => TreeEntry.path x ≠ c)
    rwa [filter_upsert_level] at hstep
  have hperm2 : List.Perm (updateOid c e.oid (sortEntries
      (es.filter (fun x => TreeEntry.path x ≠ c) ++ [(c, e.mode, v)]))) es :=
    hperm.trans ((hpermf.cons e).trans (perm_cons_filter hnd hfe).symm)
  have hsortedU : (updateOid c e.oid (sortEntries
      (es.filter (fun x => TreeEntry.path x ≠ c) ++
        [(c, e.mode, v)]))).Sorted entryLT := by
    rw [sorted_lt_iff_paths, updateOid_map_path]
    exact sorted_lt_iff_paths.mp (sorted_lt_sortEntries hndM)
  exact eq_of_perm_sorted hperm2 hsortedU hs

/-- Removing a path from the directory chain freshly created by an upsert
into an absent subtree collapses the whole chain: every level empties out,
so the EmptyMarker propagates to the creation point with no writes. -/
theorem remove_fresh_chain : ∀ (p : List String) (X fresh : Obj),
    upsertTree none p X = .ok fresh →
    removeTreeEntry fresh p = ([], .ok none) := by
  intro p
  induction p with
  | nil =>
    intro X fresh h
    simp [upsertTree] at h
  | cons c rest ih =>
    intro X fresh h
    cases rest with
    | nil =>
      rw [upsertTree_none_last] at h
      cases h
      have hfr : writeTree [(c, "100644", X)] = .tree [(c, "100644", X)] :=
        rfl
      rw [hfr]
      have hf : findEntry [(c, "100644", X)] c = some (c, "100644", X) := by
        simp [findEntry, List.find?, TreeEntry.path]
      rw [removeTreeEntry_last hf]
      have he : eraseFirst c [(c, "100644", X)] = [] := by
        simp [eraseFirst, TreeEntry.path]
      rw [he, if_pos rfl]
    | cons r rs =>
      rw [upsertTree_none_step] at h
      cases hsub : upsertTree none (r :: rs) X with
      | error err =>
        rw [hsub] at h
        cases h
      | ok newSub =>
        rw [hsub] at h
        cases h
        have hfr : writeTree [(c, "040000", newSub)] =
            .tree [(c, "040000", newSub)] := rfl
        rw [hfr]
        have hf : findEntry [(c, "040000", newSub)] c =
            some (c, "040000", newSub) := by
          simp [findEntry, List.find?, TreeEntry.path]
        have het : TreeEntry.etype ((c, "040000", newSub) : TreeEntry) =
            "tree" := rfl
        rw [removeTreeEntry_step_none hf het (ih X newSub hsub)]
        have he : eraseFirst c [(c, "040000", newSub)] = [] := by
          simp [eraseFirst, TreeEntry.path]
        rw [he, if_pos rfl]

/-- Core of the remove/upsert round trip: removing the freshly upserted path
from the new tree restores the original entry list exactly (EmptyMarker when
it was empty), the intermediate directories pruned away again. -/
theorem remove_undoes_upsert : ∀ (p : List String) (es : List TreeEntry)
    (X t' : Obj), canonObj (.tree es) = true →
    pathMissing (.tree es) p = true →
    upsertTree (some (.tree es)) p X = .ok t' →
    (removeTreeEntry t' p).2 =
      .ok (match es with | [] => none | _ :: _ => some (.tree es)) := by
  intro p
  induction p with
  | nil =>
    intro es X t' _ _ h
    simp [upsertTree] at h
  | cons c rest ih =>
    intro es X t' hcanon hmiss hup
    obtain ⟨hsorted, hcanonE⟩ := canon_tree_iff.mp hcanon
    have hslt : es.Sorted entryLT := pathsSorted_iff_sorted_lt.mp hsorted
    have hnd : (es.map TreeEntry.path).Nodup := nodup_of_sorted_lt hslt
    cases rest with
    | nil =>
      have hfe : findEntry es c = none := by
        cases hfe' : findEntry es c with
        | none => rfl
        | some e =>
          rw [pathMissing_tree, hfe'] at hmiss
          exact absurd (show false = true from hmiss) (by decide)
      rw [upsertTree_tree_last] at hup
      cases hup
      have hfL : findEntry (sortEntries
          (es.filter (fun x => TreeEntry.path x ≠ c) ++
            [(c, "100644", X)])) c = some (c, "100644", X) :=
        findEntry_level_new hnd
      show (removeTreeEntry (.tree (sortEntries
          (es.filter (fun x => TreeEntry.path x ≠ c) ++
            [(c, "100644", X)]))) [c]).2 = _
      rw [removeTreeEntry_last hfL, eraseFirst_upsert_restore hnd hslt,
        filter_eq_self_of_none hfe]
      cases es with
      | nil => rfl
      | cons e0 es0 =>
        rw [if_neg (by simp)]
        have hw : writeTree (e0 :: es0) = .tree (e0 :: es0) := by
          unfold writeTree
          rw [sortEntries_eq_self (sorted_le_of_lt hslt)]
        show Except.ok (some (writeTree (e0 :: es0))) =
          Except.ok (some (Obj.tree (e0 :: es0)))
        rw [hw]
    | cons r rs =>
      rw [upsertTree_tree_step] at hup
      cases hfe : findEntry es c with
      | none =>
        have hsub0 : (findEntry es c).map (·.oid) = none := by simp [hfe]
        rw [hsub0] at hup
        cases hsub : upsertTree none (r :: rs) X with
        | error err =>
          rw [hsub] at hup
          cases hup
        | ok newSub =>
          rw [hsub] at hup
          cases hup
          have hfL : findEntry (sortEntries
              (es.filter (fun x => TreeEntry.path x ≠ c) ++
                [(c, "040000", newSub)])) c = some (c, "040000", newSub) :=
            findEntry_level_new hnd
          have het : TreeEntry.etype ((c, "040000", newSub) : TreeEntry) =
              "tree" := rfl
          have hrec := remove_fresh_chain (r :: rs) X newSub hsub
          show (removeTreeEntry (.tree (sortEntries
              (es.filter (fun x => TreeEntry.path x ≠ c) ++
                [(c, "040000", newSub)]))) (c :: r :: rs)).2 = _
          rw [removeTreeEntry_step_none hfL het hrec,
            eraseFirst_upsert_restore hnd hslt, filter_eq_self_of_none hfe]
          cases es with
          | nil => rfl
          | cons e0 es0 =>
            rw [if_neg (by simp)]
            have hw : writeTree (e0 :: es0) = .tree (e0 :: es0) := by
              unfold writeTree
              rw [sortEntries_eq_self (sorted_le_of_lt hslt)]
            show Except.ok (some (writeTree (e0 :: es0))) =
              Except.ok (some (Obj.tree (e0 :: es0)))
            rw [hw]
      | some e =>
        rw [pathMissing_tree, hfe] at hmiss
        have hmiss' : (if e.etype = "tree" then
            pathMissing e.oid (r :: rs) else false) = true := hmiss
        by_cases het : e.etype = "tree"
        · rw [if_pos het] at hmiss'
          have hmode : e.mode = "040000" := by
            by_contra hm
            unfold TreeEntry.etype at het
            rw [if_neg hm] at het
            exact absurd het (by decide)
          obtain ⟨subs, hoid, hsubne, hsubcanon⟩ :=
            canon_entry_tree hcanonE (findEntry_mem hfe).1 hmode
          have hsub0 : (findEntry es c).map (·.oid) = some e.oid := by
            simp [hfe]
          rw [hsub0] at hup
          cases hsub : upsertTree (some e.oid) (r :: rs) X with
          | error err =>
            rw [hsub] at hup
            cases hup
          | ok newSub =>
            rw [hsub] at hup
            cases hup
            rw [hoid] at hsub hsubcanon hmiss'
            have hrec2 := ih subs X newSub hsubcanon hmiss' hsub
            have hrec3 : (removeTreeEntry newSub (r :: rs)).2 =
                .ok (some (.tree subs)) := by
              cases subs with
              | nil => exact absurd rfl hsubne
              | cons s0 ss => exact hrec2
            rcases hpair : removeTreeEntry newSub (r :: rs) with ⟨slog, sres⟩
            rw [hpair] at hrec3
            have hres : sres = .ok (some (.tree subs)) := hrec3
            have hpair2 : removeTreeEntry newSub (r :: rs) =
                (slog, .ok (some (.tree subs))) := by
              rw [hpair, hres]
            have hfL : findEntry (sortEntries
                (es.filter (fun x => TreeEntry.path x ≠ c) ++
                  [(c, "040000", newSub)])) c = some (c, "040000", newSub) :=
              findEntry_level_new hnd
            have hetL : TreeEntry.etype ((c, "040000", newSub) : TreeEntry) =
                "tree" := rfl
            show (removeTreeEntry (.tree (sortEntries
                (es.filter (fun x => TreeEntry.path x ≠ c) ++
                  [(c, "040000", newSub)]))) (c :: r :: rs)).2 = _
            rw [removeTreeEntry_step_some hfL hetL hpair2]
            rw [← hoid, ← hmode, updateOid_upsert_restore hnd hslt hfe]
            have hesne : es ≠ [] := by
              intro hnil
              rw [hnil] at hfe
              cases hfe
            rw [if_neg hesne]
            have hw : writeTree es = .tree es := by
              unfold writeTree
              rw [sortEntries_eq_self (sorted_le_of_lt hslt)]
            show Except.ok (some (writeTree es)) = _
            rw [hw]
            cases es with
            | nil => exact absurd rfl hesne
            | cons e0 es0 => rfl
        · rw [if_neg het] at hmiss'
          exact absurd hmiss' (by decide)

/-- C9: for a canonical stored tree T in which the non-empty path p is
absent (traversal hits a missing entry, every earlier segment a directory),
removing p from the result of upserting blob X at p yields exactly the tree
T again — the directories created by the upsert are pruned away, and an
originally empty root comes back as the explicit empty root tree. -/
theorem c9_remove_undoes_upsert (p : List String) (es : List TreeEntry)
    (X t' : Obj) (hcanon : canonObj (.tree es) = true)
    (hmiss : pathMissing (.tree es) p = true)
    (hup : upsertTree (some (.tree es)) p X = .ok t') :
    (removeFileRoot t' p).2 = .ok (.tree es) := by
  have h := remove_undoes_upsert p es X t' hcanon hmiss hup
  rcases hpair : removeTreeEntry t' p with ⟨log, res⟩
  rw [hpair] at h
  unfold removeFileRoot
  rw [hpair]
  cases es with
  | nil =>
    have hres : res = .ok none := h
    rw [hres]
    rfl
  | cons e0 es0 =>
    have hres : res = .ok (some (.tree (e0 :: es0))) := h
    rw [hres]

/-- C9 witness: upsert a/b := "X" into the one-file tree {z}, then remove
a/b; the original tree comes back and the fresh directory a is pruned. -/
theorem c9_witness :
    (removeFileRoot
        (.tree [("a", "040000", .tree [("b", "100644", .blob "X")]),
          ("z", "100644", .blob "Z")]) ["a", "b"]).2 =
      .ok (.tree [("z", "100644", .blob "Z")]) :=
  c9_remove_undoes_upsert ["a", "b"] [("z", "100644", .blob "Z")] (.blob "X")
    (.tree [("a", "040000", .tree [("b", "100644", .blob "X")]),
      ("z", "100644", .blob "Z")])
    (by decide) (by decide) (by decide)
